import Mathlib

/-!
# P1 smart-meter driver (`main/drivers/p1.cpp`): embedding and properties

The driver reads a DSMR telegram line by line from a UART, keeps a running CRC-16 over the
telegram, validates the four-digit trailer after the end marker and extracts the usage field.

Modelling conventions.

* A `char` / `uint8_t` is a natural number (a byte value); a C array object is a `List Nat`
  holding the whole object, and a pointer `p + k` into it is `List.drop k`.
* Every function that dereferences memory returns an `Option`; `none` stands for undefined
  behaviour (an access outside the array object, or a conversion the C standard leaves undefined).
* `int` and `long` are `Int`; `unsigned int` values are `Nat` and conversions to the 32-bit
  unsigned type are written `% 2 ^ 32` where they can change a value.
* `double` values are finite non-negative dyadic numbers `mant * 2 ^ exp`; `roundDbl` is
  round-to-nearest, ties-to-even, to a 53-bit significand.
-/

namespace P1

/-! ## Bytes and strings -/

/-- The bytes of an ASCII string literal. -/
def bytes (s : String) : List Nat := s.toList.map Char.toNat

/-- The C string stored at the start of `s`: the bytes before the first null byte. -/
def cstr (s : List Nat) : List Nat := s.takeWhile (fun c => c != 0)

/-- Global driver variables `currentCRC` and `currentUsage` (both `unsigned int`). -/
structure Globals where
  currentCRC : Nat
  currentUsage : Nat
deriving DecidableEq

/-! ## `crc16` -/

/-- One iteration of the inner loop of `crc16`: shift right, xor the polynomial on carry. -/
def crcBit (crc : Nat) : Nat :=
  if crc &&& 0x0001 != 0 then (crc >>> 1) ^^^ 0xA001 else crc >>> 1

/-- The body of the outer loop of `crc16`: xor one `unsigned char`, then eight bit steps. -/
def crcByte (crc b : Nat) : Nat := crcBit^[8] (crc ^^^ (b % 256))

/-- The outer loop of `crc16`, `n` iterations left, reading `buf[pos]`. -/
def crc16Loop (buf : List Nat) : Nat → Nat → Nat → Option Nat
  | 0, _, crc => some crc
  | n + 1, pos, crc =>
    match buf[pos]? with
    | none => none
    | some b => crc16Loop buf n (pos + 1) (crcByte crc b)

/-- Source function `crc16(crc, buf, len)`. -/
def crc16 (crc : Nat) (buf : List Nat) (len : Int) : Option Nat :=
  crc16Loop buf len.toNat 0 crc

/-- The CRC-16 (polynomial 0xA001) of a byte sequence from seed `crc`, as a fold. -/
def crcOf (crc : Nat) (bs : List Nat) : Nat := bs.foldl crcByte crc

/-! ## `isNumber`, `findCharInArrayRev` -/

/-- The test of `isNumber` on one character: not a digit, not `.`, not null. -/
def notNumeric (c : Nat) : Bool := (c < 48 || c > 57) && (c != 46 && c != 0)

/-- The loop of `isNumber`, `n` iterations left, reading `res[i]`. -/
def isNumberLoop (res : List Nat) : Nat → Nat → Option Bool
  | 0, _ => some true
  | n + 1, i =>
    match res[i]? with
    | none => none
    | some c => if notNumeric c then some false else isNumberLoop res n (i + 1)

/-- Source function `isNumber(res, len)`. -/
def isNumber (res : List Nat) (len : Int) : Option Bool := isNumberLoop res len.toNat 0

/-- The loop of `findCharInArrayRev`; the argument is `i + 1` for the loop variable `i`. -/
def findLoop (array : List Nat) (c : Nat) : Nat → Option Int
  | 0 => some (-1)
  | i + 1 =>
    match array[i]? with
    | none => none
    | some x => if x = c then some (i : Int) else findLoop array c i

/-- Source function `findCharInArrayRev(array, c, len)`. -/
def findCharInArrayRev (array : List Nat) (c : Nat) (len : Int) : Option Int :=
  findLoop array c len.toNat

/-! ## C library functions used by the driver -/

/-- The `n` bytes `strncpy(dest, src, n)` writes to `dest`: the characters of `src` up to a
null byte, padded with null bytes; `none` when it reads past the end of the source object. -/
def strncpy (src : List Nat) : Nat → Option (List Nat)
  | 0 => some []
  | n + 1 =>
    match src with
    | [] => none
    | x :: xs =>
      if x = 0 then some (List.replicate (n + 1) 0)
      else (strncpy xs n).map (fun r => x :: r)

/-- The result of `strncmp(s1, s2, n) == 0`; `none` when the comparison leaves an object. -/
def strncmpEq (s1 s2 : List Nat) : Nat → Option Bool
  | 0 => some true
  | n + 1 =>
    match s1, s2 with
    | a :: s1t, b :: s2t =>
      if a != b then some false
      else if a = 0 then some true
      else strncmpEq s1t s2t n
    | _, _ => none

/-- The C locale `isspace`. -/
def isspace (c : Nat) : Bool := c = 32 || (9 ≤ c && c ≤ 13)

/-- The value of a hexadecimal digit character, if it is one. -/
def hexDigit (c : Nat) : Option Nat :=
  if 48 ≤ c ∧ c ≤ 57 then some (c - 48)
  else if 65 ≤ c ∧ c ≤ 70 then some (c - 55)
  else if 97 ≤ c ∧ c ≤ 102 then some (c - 87)
  else none

/-- The digit loop of `strtol` in base 16: accumulate until the first non-digit. -/
def hexAcc : List Nat → Nat → Nat
  | [], acc => acc
  | c :: cs, acc =>
    match hexDigit c with
    | some d => hexAcc cs (acc * 16 + d)
    | none => acc

/-- The sign step of `strtol`: an optional `-` or `+`. -/
def stripSign : List Nat → Bool × List Nat
  | 45 :: t => (true, t)
  | 43 :: t => (false, t)
  | s => (false, s)

/-- The prefix step of `strtol` in base 16: an optional `0x` or `0X`. -/
def strip0x : List Nat → List Nat
  | 48 :: x :: t => if x = 120 ∨ x = 88 then t else 48 :: x :: t
  | s => s

/-- The value `strtol(s, NULL, 16)` of a C string of at most four characters: white space, an
optional sign, an optional `0x`, then hexadecimal digits up to the first other character. -/
def strtol16 (s : List Nat) : Int :=
  let p := stripSign (s.dropWhile isspace)
  let v : Int := (hexAcc (strip0x p.2) 0 : Nat)
  if p.1 then -v else v

/-! ## `double` arithmetic: `atof` on digit strings and the product with 1000 -/

/-- A finite non-negative `double`: the value `mant * 2 ^ exp`. -/
structure Dbl where
  mant : Nat
  exp : Int
deriving DecidableEq

/-- Numerator of `a / (b * 2 ^ e)` written as a quotient of naturals. -/
def scaleNum (a : Nat) (e : Int) : Nat := if 0 ≤ e then a else a * 2 ^ (-e).toNat

/-- Denominator of `a / (b * 2 ^ e)` written as a quotient of naturals. -/
def scaleDen (b : Nat) (e : Int) : Nat := if 0 ≤ e then b * 2 ^ e.toNat else b

/-- Binary logarithm by repeated halving, with `f` halvings allowed. -/
def log2Fuel : Nat → Nat → Nat
  | 0, _ => 0
  | f + 1, n => if n < 2 then 0 else log2Fuel f (n / 2) + 1

/-- The position of the leading bit of `n`: `2 ^ ilog2 n ≤ n < 2 ^ (ilog2 n + 1)` for `0 < n`. -/
def ilog2 (n : Nat) : Nat := log2Fuel n n

/-- The exponent of the unit in the last place for the positive rational `a / b`: the `e` with
`2 ^ 52 ≤ (a / b) / 2 ^ e < 2 ^ 53`. -/
def ulpExp (a b : Nat) : Int :=
  let e0 : Int := (ilog2 a : Int) - (ilog2 b : Int) - 52
  if scaleNum a e0 / scaleDen b e0 < 2 ^ 52 then e0 - 1 else e0

/-- Round the quotient `num / den` to the nearest integer, ties to even. -/
def roundHalfEven (num den : Nat) : Nat :=
  let q := num / den
  let r := num % den
  if 2 * r < den then q else if den < 2 * r then q + 1 else q + q % 2

/-- Round the non-negative rational `a / b` to the nearest `double`, ties to even (values in
the normal range, which is all the driver can produce from a 16-byte digit string). -/
def roundDbl (a b : Nat) : Dbl :=
  if a = 0 then ⟨0, 0⟩
  else
    let e := ulpExp a b
    ⟨roundHalfEven (scaleNum a e) (scaleDen b e), e⟩

/-- The C `isdigit`. -/
def isdigit (c : Nat) : Bool := 48 ≤ c && c ≤ 57

/-- The value of a string of decimal digits. -/
def decVal (ds : List Nat) : Nat := ds.foldl (fun acc c => acc * 10 + (c - 48)) 0

/-- The integer-part digits that `atof` reads at the start of `s`. -/
def intDigits (s : List Nat) : List Nat := s.takeWhile isdigit

/-- The fraction digits that `atof` reads after the integer part and a `.`. -/
def fracDigits (s : List Nat) : List Nat :=
  match s.dropWhile isdigit with
  | 46 :: t => t.takeWhile isdigit
  | _ => []

/-- The result of `atof(s)` for a C string `s` made of decimal digits and `.` (the only strings
`getValue` passes on after `isNumber`): the longest prefix `digits [. digits]` is converted,
correctly rounded; with no digit at all the result is 0. -/
def atof (s : List Nat) : Dbl :=
  roundDbl (decVal (intDigits s ++ fracDigits s)) (10 ^ (fracDigits s).length)

/-- The `double` product `1000 * d`. -/
def mul1000 (d : Dbl) : Dbl := roundDbl (scaleNum (1000 * d.mant) (-d.exp)) (scaleDen 1 (-d.exp))

/-- Conversion of a `double` to the 32-bit `long`: truncation; undefined when out of range. -/
def toLong (d : Dbl) : Option Int :=
  let t : Nat := scaleNum d.mant (-d.exp) / scaleDen 1 (-d.exp)
  if t < 2 ^ 31 then some (t : Int) else none

/-- The call `atof(res)` on the scratch array: `res` must hold a null-terminated string. -/
def atofRes (res : List Nat) : Option Dbl :=
  if res.contains 0 then some (atof (cstr res)) else none

/-! ## `getValue` and `decode_telegram` -/

/-- Source function `getValue(buffer, maxlen, startchar, endchar)`. The scratch array `res` has
16 bytes, all zero before `strncpy` writes `(size_t) l` bytes to it. -/
def getValue (buffer : List Nat) (maxlen : Int) (startchar endchar : Nat) : Option Int :=
  match findCharInArrayRev buffer startchar (maxlen - 2),
        findCharInArrayRev buffer endchar (maxlen - 2) with
  | some s, some e =>
    let l : Int := e - s - 1
    let n : Nat := (l % 2 ^ 32).toNat
    if 16 < n then none
    else
      match strncpy (buffer.drop (s + 1).toNat) n with
      | none => none
      | some w =>
        let res := w ++ List.replicate (16 - n) 0
        if endchar = 42 then
          match isNumber res l with
          | none => none
          | some true => (atofRes res).bind (fun d => toLong (mul1000 d))
          | some false => some 0
        else if endchar = 41 then
          match isNumber res l with
          | none => none
          | some true => (atofRes res).bind toLong
          | some false => some 0
        else some 0
  | _, _ => none

/-- The string literal `"1-0:1.7.0"`. -/
def usageTag : List Nat := bytes "1-0:1.7.0"

/-- The framing part of `decode_telegram` (the `if / else if / else` on the markers): the new
value of `currentCRC` and `validCRCFound`. -/
def frameStep (crc : Nat) (telegram : List Nat) (len : Int) (startChar endChar : Int) :
    Option (Nat × Bool) :=
  if 0 ≤ startChar then
    (crc16 0x0000 (telegram.drop startChar.toNat) (len - startChar)).map (fun c => (c, false))
  else if 0 ≤ endChar then
    match crc16 crc (telegram.drop endChar.toNat) 1,
          strncpy (telegram.drop (endChar + 1).toNat) 4 with
    | some c, some messageCRC =>
      some (0, decide (strtol16 (cstr messageCRC) % 2 ^ 32 = (c : Int) % 2 ^ 32))
    | _, _ => none
  else
    (crc16 crc telegram len).map (fun c => (c, false))

/-- The usage part of `decode_telegram`: the new value of `currentUsage`. -/
def usageStep (usage : Nat) (telegram : List Nat) (len : Int) : Option Nat :=
  match strncmpEq telegram (usageTag ++ [0]) usageTag.length with
  | none => none
  | some true => (getValue telegram len 40 42).map (fun newValue => (newValue % 2 ^ 32).toNat)
  | some false => some usage

/-- Source function `decode_telegram(telegram, len)` on the globals `g`: the updated globals
and the returned `validCRCFound`. -/
def decode_telegram (g : Globals) (telegram : List Nat) (len : Int) : Option (Globals × Bool) :=
  match findCharInArrayRev telegram 47 len, findCharInArrayRev telegram 33 len with
  | some startChar, some endChar =>
    match frameStep g.currentCRC telegram len startChar endChar with
    | none => none
    | some (crc, validCRCFound) =>
      match usageStep g.currentUsage telegram len with
      | none => none
      | some usage => some (⟨crc, usage⟩, validCRCFound)
  | _, _ => none

/-! ## `read_bytes_until` and `p1_read` -/

/-- The receive side of the UART: `src k` is the outcome of the `k`-th call
`uart_read_bytes(UART_NUM_1, data, 1, 100)`, `some b` when one byte arrived and was stored in
`data[0]`, `none` when the call timed out or failed and left `data[0]` as initialised. -/
abbrev ByteSource := Nat → Option Nat

/-- A store `a[i] = v` into an array object; `none` when `i` is outside the object. -/
def store (a : List Nat) (i v : Nat) : Option (List Nat) :=
  if i < a.length then some (a.set i v) else none

/-- The loop of `read_bytes_until`, `n = length - index` iterations left; `k` counts the calls
of `uart_read_bytes` made so far. Result: the final `index`, the call count and the buffer. -/
def readLoop (terminator : Nat) (src : ByteSource) :
    Nat → Nat → Nat → List Nat → Option (Nat × Nat × List Nat)
  | 0, index, k, buffer => some (index, k, buffer)
  | n + 1, index, k, buffer =>
    let c : Nat := (src k).getD 0
    if (c : Int) < 0 || c == terminator then some (index, k + 1, buffer)
    else
      match store buffer index c with
      | none => none
      | some b => readLoop terminator src n (index + 1) (k + 1) b

/-- Source function `read_bytes_until(terminator, buffer, length)`, reading from call `k` on. -/
def read_bytes_until (terminator : Nat) (src : ByteSource) (k : Nat) (buffer : List Nat)
    (length : Nat) : Option (Nat × Nat × List Nat) :=
  readLoop terminator src length 0 k buffer

/-- One iteration of the `while (true)` loop of `p1_read`: the result of `decode_telegram`, the
call count, the globals and the buffer afterwards. -/
def p1_read_iter (src : ByteSource) (k : Nat) (g : Globals) (data : List Nat) :
    Option (Bool × Nat × Globals × List Nat) :=
  match read_bytes_until 10 src k data 1050 with
  | none => none
  | some (len, k1, d1) =>
    match store d1 len 10 with
    | none => none
    | some d2 =>
      match store d2 (len + 1) 0 with
      | none => none
      | some d3 =>
        match decode_telegram g d3 ((len : Int) + 1) with
        | none => none
        | some (g1, result) => some (result, k1, g1, d3)

/-- The `while (true)` loop of `p1_read`, cut after `fuel` iterations: `some (some _)` when a
telegram validated, `some none` when no telegram validated within `fuel` lines. -/
def p1_read_loop (src : ByteSource) : Nat → Nat → Globals → List Nat →
    Option (Option (Nat × Globals × List Nat))
  | 0, _, _, _ => some none
  | fuel + 1, k, g, data =>
    match p1_read_iter src k g data with
    | none => none
    | some (result, k1, g1, d1) =>
      if result then some (some (k1, g1, d1)) else p1_read_loop src fuel k1 g1 d1

/-- Source function `p1_read(data, size)`; `buffered` is what `uart_get_buffered_data_len`
reports (the call itself is taken to succeed). The first component of the result is the
returned `bool`. -/
def p1_read (src : ByteSource) (fuel : Nat) (buffered : Int) (k : Nat) (g : Globals)
    (data : List Nat) : Option (Option (Bool × Nat × Globals × List Nat)) :=
  if 0 < buffered then
    (p1_read_loop src fuel k g data).map (fun r => r.map (fun x => (true, x)))
  else some (some (false, k, g, data))

/-- Source function `p1_read_data(usage)`: the line buffer is the zero-initialised
`char data[1050]`. The result carries the value left in `usage` (`none` when it is not
assigned). -/
def p1_read_data (src : ByteSource) (fuel : Nat) (buffered : Int) (k : Nat) (g : Globals) :
    Option (Option (Option Nat × Nat × Globals)) :=
  (p1_read src fuel buffered k g (List.replicate 1050 0)).map (fun r =>
    r.map (fun x => (if x.1 then some x.2.2.1.currentUsage else none, x.2.1, x.2.2.1)))

/-! ## `p1_sensor_init` -/

/-- The type `esp_err_t`. -/
abbrev esp_err_t := Int

/-- ESP-IDF constant `ESP_OK`. -/
def ESP_OK : esp_err_t := 0

/-- ESP-IDF constant `ESP_ERR_INVALID_ARG`. -/
def ESP_ERR_INVALID_ARG : esp_err_t := 0x102

/-- ESP-IDF constant `ESP_ERR_INVALID_STATE`. -/
def ESP_ERR_INVALID_STATE : esp_err_t := 0x103

/-- The structure `p1_sensor_config_t`; the callback and the user data are opaque handles. -/
structure p1_sensor_config_t where
  cb : Option Nat
  endpoint_id : Nat
  user_data : Option Nat
  interval_ms : Nat
deriving DecidableEq

/-- The structure `p1_sensor_ctx_t` (the static `s_ctx`); a null pointer is `none`. -/
structure p1_sensor_ctx_t where
  config : Option p1_sensor_config_t
  timer : Option Nat
  is_initialized : Bool
deriving DecidableEq

/-- What the ESP-IDF calls made during initialisation return. -/
structure Platform where
  uart_param_config : esp_err_t
  uart_set_line_inverse : esp_err_t
  uart_set_pin : esp_err_t
  uart_driver_install : esp_err_t
  esp_timer_create : esp_err_t
  timer_handle : Nat
  esp_timer_start_periodic : esp_err_t

/-- Source function `p1_init_uart()`; `none` when an `ESP_ERROR_CHECK` aborts. -/
def p1_init_uart (env : Platform) : Option esp_err_t :=
  if env.uart_param_config != ESP_OK then none
  else if env.uart_set_line_inverse != ESP_OK then none
  else if env.uart_set_pin != ESP_OK then none
  else some env.uart_driver_install

/-- Source function `p1_sensor_init(config)` on the static context `ctx`: the returned code and
the context afterwards; `none` when an `ESP_ERROR_CHECK` aborts. -/
def p1_sensor_init (env : Platform) (ctx : p1_sensor_ctx_t)
    (config : Option p1_sensor_config_t) : Option (esp_err_t × p1_sensor_ctx_t) :=
  match config with
  | none => some (ESP_ERR_INVALID_ARG, ctx)
  | some cfg =>
    if ctx.is_initialized then some (ESP_ERR_INVALID_STATE, ctx)
    else
      match p1_init_uart env with
      | none => none
      | some err =>
        if err != ESP_OK then some (err, ctx)
        else
          let ctx1 : p1_sensor_ctx_t := { ctx with config := some cfg }
          if env.esp_timer_create != ESP_OK then some (env.esp_timer_create, ctx1)
          else
            let ctx2 : p1_sensor_ctx_t := { ctx1 with timer := some env.timer_handle }
            if env.esp_timer_start_periodic != ESP_OK then
              some (env.esp_timer_start_periodic, ctx2)
            else some (ESP_OK, { ctx2 with is_initialized := true })

/-! ## Vocabulary of the properties -/

/-- Byte `c` occurs among the first `n` bytes of `l`. -/
def Occurs (l : List Nat) (c n : Nat) : Prop := ∃ i, i < n ∧ l[i]? = some c

/-- Index `s` is the last occurrence of byte `c` among the first `n` bytes of `l`. -/
def LastAt (l : List Nat) (c n s : Nat) : Prop :=
  s < n ∧ l[s]? = some c ∧ ∀ i, i < n → s < i → l[i]? ≠ some c

/-- The bytes `l[s..n)`. -/
def slice (l : List Nat) (s n : Nat) : List Nat := (l.drop s).take (n - s)

instance (l : List Nat) (c n s : Nat) : Decidable (LastAt l c n s) := by
  unfold LastAt; infer_instance

/-- Feed the lines of a telegram to `decode_telegram` in order, each as a C string (the line
followed by a null byte) with its length: the globals afterwards and the returned values. -/
def feed (g : Globals) : List (List Nat) → Option (Globals × List Bool)
  | [] => some (g, [])
  | l :: ls =>
    match decode_telegram g (l ++ [0]) (l.length : Int) with
    | none => none
    | some (g1, r) => (feed g1 ls).map (fun p => (p.1, r :: p.2))

/-- The integer value of a string of hexadecimal digits. -/
def hexVal (t : List Nat) : Nat := t.foldl (fun acc c => acc * 16 + (hexDigit c).getD 0) 0

/-! # Properties -/

set_option maxRecDepth 100000

/-! ## The marker search -/

theorem not_occurs_iff (l : List Nat) (c n : Nat) :
    ¬ Occurs l c n ↔ ∀ i, i < n → l[i]? ≠ some c := by
  simp [Occurs]

/-- What `findCharInArrayRev` returns when it returns: the whole searched range lies inside the
array, and the result is `-1` with no occurrence, or the index of the last occurrence. -/
theorem findLoop_some (array : List Nat) (c : Nat) (n : Nat) :
    ∀ r, findLoop array c n = some r →
      n ≤ array.length ∧
      ((r = -1 ∧ ¬ Occurs array c n) ∨ (∃ s : Nat, r = (s : Int) ∧ LastAt array c n s)) := by
  induction n with
  | zero =>
    intro r h
    simp only [findLoop, Option.some.injEq] at h
    exact ⟨Nat.zero_le _, Or.inl ⟨h.symm, by simp [Occurs]⟩⟩
  | succ n ih =>
    intro r h
    unfold findLoop at h
    split at h
    · exact absurd h (by simp)
    · rename_i x hx
      have hn : n < array.length := by
        by_contra hcon
        rw [List.getElem?_eq_none (by omega)] at hx
        exact absurd hx (by simp)
      split at h
      · rename_i hxc
        simp only [Option.some.injEq] at h
        refine ⟨hn, Or.inr ⟨n, h.symm, Nat.lt_succ_self n, by rw [hx, hxc], ?_⟩⟩
        intro i h1 h2
        omega
      · rename_i hxc
        obtain ⟨_, hr⟩ := ih r h
        refine ⟨hn, ?_⟩
        rcases hr with ⟨h1, h2⟩ | ⟨s, h1, h2, h3, h4⟩
        · refine Or.inl ⟨h1, ?_⟩
          rw [not_occurs_iff] at h2 ⊢
          intro i hi
          by_cases hin : i = n
          · subst hin
            rw [hx]
            simpa using hxc
          · exact h2 i (by omega)
        · refine Or.inr ⟨s, h1, by omega, h3, ?_⟩
          intro i hi1 hi2
          by_cases hin : i = n
          · subst hin
            rw [hx]
            simpa using hxc
          · exact h4 i (by omega) hi2

/-- The search returns whenever the searched range lies inside the array. -/
theorem findLoop_total (array : List Nat) (c : Nat) (n : Nat) (hn : n ≤ array.length) :
    ∃ r, findLoop array c n = some r := by
  induction n with
  | zero => exact ⟨-1, rfl⟩
  | succ n ih =>
    obtain ⟨r, hr⟩ := ih (by omega)
    have hx : array[n]? = some array[n] := List.getElem?_eq_getElem (by omega)
    by_cases hc : array[n] = c
    · exact ⟨(n : Int), by simp [findLoop, hx, hc]⟩
    · exact ⟨r, by simp [findLoop, hx, hc, hr]⟩

theorem lastAt_unique (l : List Nat) (c n s t : Nat) (hs : LastAt l c n s)
    (ht : LastAt l c n t) : s = t := by
  obtain ⟨hs1, hs2, hs3⟩ := hs
  obtain ⟨ht1, ht2, ht3⟩ := ht
  by_contra hne
  rcases Nat.lt_or_gt_of_ne hne with h | h
  · exact hs3 t ht1 h ht2
  · exact ht3 s hs1 h hs2

theorem lastAt_occurs (l : List Nat) (c n s : Nat) (hs : LastAt l c n s) : Occurs l c n :=
  ⟨s, hs.1, hs.2.1⟩

/-- The result of the search when there is no occurrence. -/
theorem findLoop_absent (array : List Nat) (c n : Nat) (hn : n ≤ array.length)
    (h : ¬ Occurs array c n) : findLoop array c n = some (-1) := by
  obtain ⟨r, hr⟩ := findLoop_total array c n hn
  rcases (findLoop_some array c n r hr).2 with ⟨h1, _⟩ | ⟨s, _, h2⟩
  · rw [hr, h1]
  · exact absurd (lastAt_occurs _ _ _ _ h2) h

/-- The result of the search when `s` is the last occurrence. -/
theorem findLoop_lastAt (array : List Nat) (c n s : Nat) (hn : n ≤ array.length)
    (h : LastAt array c n s) : findLoop array c n = some (s : Int) := by
  obtain ⟨r, hr⟩ := findLoop_total array c n hn
  rcases (findLoop_some array c n r hr).2 with ⟨_, h2⟩ | ⟨t, h1, h2⟩
  · exact absurd (lastAt_occurs _ _ _ _ h) h2
  · rw [hr, h1, lastAt_unique _ _ _ _ _ h h2]

/-! ## The checksum loop -/

theorem crcOf_append (crc : Nat) (a b : List Nat) :
    crcOf crc (a ++ b) = crcOf (crcOf crc a) b := by
  simp [crcOf, List.foldl_append]

/-- When `crc16` returns it read `n` bytes inside the array and folded them in order. -/
theorem crc16Loop_some (buf : List Nat) (n : Nat) :
    ∀ pos crc r, crc16Loop buf n pos crc = some r →
      r = crcOf crc ((buf.drop pos).take n) := by
  induction n with
  | zero =>
    intro pos crc r h
    simp only [crc16Loop, Option.some.injEq] at h
    simp [crcOf, h]
  | succ n ih =>
    intro pos crc r h
    unfold crc16Loop at h
    split at h
    · exact absurd h (by simp)
    · rename_i b hb
      have hpos : pos < buf.length := by
        by_contra hcon
        rw [List.getElem?_eq_none (by omega)] at hb
        exact absurd hb (by simp)
      have hb2 : buf[pos] = b := by
        rw [List.getElem?_eq_getElem hpos] at hb
        simpa using hb
      rw [ih _ _ _ h, List.drop_eq_getElem_cons hpos, List.take_succ_cons, hb2]
      simp [crcOf]

theorem crc16Loop_total (buf : List Nat) (n : Nat) :
    ∀ pos crc, pos + n ≤ buf.length →
      crc16Loop buf n pos crc = some (crcOf crc ((buf.drop pos).take n)) := by
  induction n with
  | zero =>
    intro pos crc _
    simp [crc16Loop, crcOf]
  | succ n ih =>
    intro pos crc h
    have hpos : pos < buf.length := by omega
    rw [List.drop_eq_getElem_cons hpos, List.take_succ_cons]
    simp only [crc16Loop, List.getElem?_eq_getElem hpos]
    rw [ih (pos + 1) _ (by omega)]
    simp [crcOf]

/-! ## The framing step of `decode_telegram` -/

/-- The pieces of a completed call of `decode_telegram`. -/
theorem decode_telegram_some (g : Globals) (telegram : List Nat) (len : Int) (g1 : Globals)
    (r : Bool) (h : decode_telegram g telegram len = some (g1, r)) :
    ∃ startChar endChar,
      findLoop telegram 47 len.toNat = some startChar ∧
      findLoop telegram 33 len.toNat = some endChar ∧
      frameStep g.currentCRC telegram len startChar endChar = some (g1.currentCRC, r) ∧
      usageStep g.currentUsage telegram len = some g1.currentUsage := by
  unfold decode_telegram at h
  split at h
  · rename_i startChar endChar hs he
    split at h
    · exact absurd h (by simp)
    · rename_i crc v hf
      split at h
      · exact absurd h (by simp)
      · rename_i usage hu
        simp only [Option.some.injEq, Prod.mk.injEq] at h
        obtain ⟨h1, h2⟩ := h
        subst h1 h2
        exact ⟨startChar, endChar, hs, he, hf, hu⟩
  · exact absurd h (by simp)

/-- The framing step when the line has a start marker, last at index `s`. -/
theorem frameStep_start (crc : Nat) (telegram : List Nat) (len : Int) (s : Nat) (endChar : Int)
    (c : Nat) (v : Bool) (h : frameStep crc telegram len (s : Int) endChar = some (c, v)) :
    c = crcOf 0 (slice telegram s len.toNat) ∧ v = false := by
  unfold frameStep at h
  rw [if_pos (by omega)] at h
  simp only [Option.map_eq_some', Prod.mk.injEq] at h
  obtain ⟨a, ha, h1, h2⟩ := h
  refine ⟨?_, h2.symm⟩
  rw [← h1, crc16Loop_some _ _ _ _ _ ha]
  have e : (len - (s : Int)).toNat = len.toNat - s := by omega
  simp [slice, e]

/-- The framing step on a line without a marker. -/
theorem frameStep_data (crc : Nat) (telegram : List Nat) (len : Int)
    (c : Nat) (v : Bool) (h : frameStep crc telegram len (-1) (-1) = some (c, v)) :
    c = crcOf crc (slice telegram 0 len.toNat) ∧ v = false := by
  unfold frameStep at h
  rw [if_neg (by omega), if_neg (by omega)] at h
  simp only [Option.map_eq_some', Prod.mk.injEq] at h
  obtain ⟨a, ha, h1, h2⟩ := h
  refine ⟨?_, h2.symm⟩
  rw [← h1, crc16Loop_some _ _ _ _ _ ha]
  simp [slice]

/-- The bytes of the C string that `strncpy` leaves in a destination of `n` bytes. -/
theorem strncpy_cstr (n : Nat) : ∀ (src w : List Nat), strncpy src n = some w →
    cstr w = cstr (src.take n) ∧ w.length = n := by
  induction n with
  | zero =>
    intro src w h
    simp only [strncpy, Option.some.injEq] at h
    subst h
    simp [cstr]
  | succ n ih =>
    intro src w h
    unfold strncpy at h
    split at h
    · exact absurd h (by simp)
    · rename_i x xs
      split at h
      · rename_i hx
        simp only [Option.some.injEq] at h
        subst h
        subst hx
        simp [cstr, List.replicate_succ, List.takeWhile_cons]
      · rename_i hx
        simp only [Option.map_eq_some'] at h
        obtain ⟨w1, hw1, hw⟩ := h
        subst hw
        obtain ⟨h1, h2⟩ := ih xs w1 hw1
        refine ⟨?_, by simp [h2]⟩
        simp only [cstr] at h1 ⊢
        simp [List.takeWhile_cons, hx, h1]

/-- The framing step when the line has no start marker and an end marker, last at index `e`:
the checksum is reset and the trailer is compared with the checksum through the end marker. -/
theorem frameStep_end (crc : Nat) (telegram : List Nat) (len : Int) (e : Nat)
    (he : telegram[e]? = some 33)
    (c : Nat) (v : Bool) (h : frameStep crc telegram len (-1) (e : Int) = some (c, v)) :
    c = 0 ∧
    v = decide (strtol16 (cstr (slice telegram (e + 1) (e + 5))) % 2 ^ 32 =
          ((crcOf crc [33] : Nat) : Int) % 2 ^ 32) := by
  unfold frameStep at h
  rw [if_neg (by omega), if_pos (by omega)] at h
  split at h
  · rename_i a m ha hm
    simp only [Option.some.injEq, Prod.mk.injEq] at h
    refine ⟨h.1.symm, ?_⟩
    rw [← h.2]
    have h1 := crc16Loop_some _ _ _ _ _ ha
    have e1 : ((e : Int) + 1).toNat = e + 1 := by omega
    have e2 : ((e : Int)).toNat = e := by omega
    have e3 : (1 : Int).toNat = 1 := rfl
    rw [e1] at hm
    rw [e2, e3] at h1
    have hlt : e < telegram.length := by
      by_contra hcon
      rw [List.getElem?_eq_none (by omega)] at he
      exact absurd he (by simp)
    have hb : telegram[e] = 33 := by
      rw [List.getElem?_eq_getElem hlt] at he
      simpa using he
    have h2 : ((List.drop e telegram).drop 0).take 1 = [33] := by
      rw [List.drop_zero, List.drop_eq_getElem_cons hlt, hb]
      simp
    rw [h2] at h1
    rw [(strncpy_cstr 4 _ _ hm).1, h1]
    have e4 : e + 5 - (e + 1) = 4 := by omega
    simp [slice, e4]
  · exact absurd h (by simp)

/-! ## Ranges of the checksum and of the parsed trailer -/

theorem crcBit_lt (k x : Nat) (hk : 16 ≤ k) (hx : x < 2 ^ (k + 1)) : crcBit x < 2 ^ k := by
  have h1 : x >>> 1 < 2 ^ k := by
    rw [Nat.shiftRight_eq_div_pow, pow_one]
    rw [pow_succ] at hx
    omega
  unfold crcBit
  split
  · apply Nat.xor_lt_two_pow h1
    calc 0xA001 < 2 ^ 16 := by norm_num
      _ ≤ 2 ^ k := Nat.pow_le_pow_right (by norm_num) hk
  · exact h1

/-- One byte folded into a 32-bit checksum leaves a value below `2 ^ 24`. -/
theorem crcByte_lt (crc b : Nat) (hc : crc < 2 ^ 32) : crcByte crc b < 2 ^ 24 := by
  have hb : b % 256 < 2 ^ 32 := by omega
  have h0 : crc ^^^ (b % 256) < 2 ^ 32 := Nat.xor_lt_two_pow hc hb
  unfold crcByte
  simp only [Function.iterate_succ, Function.iterate_zero, Function.comp_apply, id_eq]
  exact crcBit_lt 24 _ (by norm_num) (crcBit_lt 25 _ (by norm_num) (crcBit_lt 26 _ (by norm_num)
    (crcBit_lt 27 _ (by norm_num) (crcBit_lt 28 _ (by norm_num) (crcBit_lt 29 _ (by norm_num)
    (crcBit_lt 30 _ (by norm_num) (crcBit_lt 31 _ (by norm_num) h0)))))))

theorem hexDigit_lt (c d : Nat) (h : hexDigit c = some d) : d < 16 := by
  unfold hexDigit at h
  split at h
  · simp only [Option.some.injEq] at h; omega
  · split at h
    · simp only [Option.some.injEq] at h; omega
    · split at h
      · simp only [Option.some.injEq] at h; omega
      · exact absurd h (by simp)

theorem hexAcc_lt (cs : List Nat) : ∀ acc, hexAcc cs acc < (acc + 1) * 16 ^ cs.length := by
  induction cs with
  | nil => intro acc; simp [hexAcc]
  | cons c cs ih =>
    intro acc
    unfold hexAcc
    split
    · rename_i d hd
      have hd16 := hexDigit_lt c d hd
      calc hexAcc cs (acc * 16 + d) < (acc * 16 + d + 1) * 16 ^ cs.length := ih _
        _ ≤ ((acc + 1) * 16) * 16 ^ cs.length := Nat.mul_le_mul_right _ (by omega)
        _ = (acc + 1) * 16 ^ (c :: cs).length := by
          rw [List.length_cons, pow_succ]; ring
    · have : 0 < 16 ^ (c :: cs).length := Nat.pow_pos (by norm_num)
      calc acc < acc + 1 := Nat.lt_succ_self _
        _ ≤ (acc + 1) * 16 ^ (c :: cs).length := Nat.le_mul_of_pos_right _ this

theorem stripSign_length (s : List Nat) : (stripSign s).2.length ≤ s.length := by
  unfold stripSign
  split <;> simp

theorem strip0x_length (s : List Nat) : (strip0x s).length ≤ s.length := by
  unfold strip0x
  split
  · split
    · simp only [List.length_cons]; omega
    · exact le_refl _
  · exact le_refl _

/-- The value `strtol` reads from at most four characters lies strictly between `-2 ^ 16` and
`2 ^ 16`. -/
theorem strtol16_range (s : List Nat) (hs : s.length ≤ 4) :
    -(2 : Int) ^ 16 < strtol16 s ∧ strtol16 s < 2 ^ 16 := by
  have h1 : (s.dropWhile isspace).length ≤ 4 :=
    le_trans (List.dropWhile_sublist _).length_le hs
  have h2 := stripSign_length (s.dropWhile isspace)
  have h3 := strip0x_length (stripSign (s.dropWhile isspace)).2
  have h4 := hexAcc_lt (strip0x (stripSign (s.dropWhile isspace)).2) 0
  have h5 : 16 ^ (strip0x (stripSign (s.dropWhile isspace)).2).length ≤ 16 ^ 4 :=
    Nat.pow_le_pow_right (by norm_num) (by omega)
  have h6 : hexAcc (strip0x (stripSign (s.dropWhile isspace)).2) 0 < 2 ^ 16 := by
    have : (16 : Nat) ^ 4 = 2 ^ 16 := by norm_num
    omega
  unfold strtol16
  simp only
  split <;> omega

theorem cstr_length_le (s : List Nat) : (cstr s).length ≤ s.length :=
  (List.takeWhile_sublist _).length_le

theorem slice_length_le (l : List Nat) (s n : Nat) : (slice l s n).length ≤ n - s := by
  simp [slice, List.length_take]

/-- The comparison `strtol(messageCRC, NULL, 16) == currentCRC` in unsigned 32-bit arithmetic
is numeric equality, given that `currentCRC` held a 32-bit value before the end marker. -/
theorem trailer_compare (crc : Nat) (s : List Nat) (hc : crc < 2 ^ 32) (hs : s.length ≤ 4) :
    (strtol16 s % 2 ^ 32 = ((crcOf crc [33] : Nat) : Int) % 2 ^ 32) ↔
      strtol16 s = ((crcOf crc [33] : Nat) : Int) := by
  have h1 := strtol16_range s hs
  have h2 : crcOf crc [33] < 2 ^ 24 := by
    simpa [crcOf] using crcByte_lt crc 33 hc
  constructor
  · intro h; omega
  · intro h; rw [h]

/-! ## The usage field -/

theorem usageTag_eq : usageTag = [49, 45, 48, 58, 49, 46, 55, 46, 48] := by decide

/-- On a line that begins with the usage tag the comparison `strncmp(...) == 0` holds. -/
theorem strncmpEq_tag (telegram : List Nat) (h : usageTag <+: telegram) :
    strncmpEq telegram (usageTag ++ [0]) usageTag.length = some true := by
  obtain ⟨rest, rfl⟩ := h
  rw [usageTag_eq]
  simp [strncmpEq]

/-- The bytes `strncpy` writes: the C string at the source cut to `n` bytes, then null bytes. -/
theorem strncpy_eq (n : Nat) : ∀ (src w : List Nat), strncpy src n = some w →
    w = cstr (src.take n) ++ List.replicate (n - (cstr (src.take n)).length) 0 := by
  induction n with
  | zero =>
    intro src w h
    simp only [strncpy, Option.some.injEq] at h
    subst h
    simp [cstr]
  | succ n ih =>
    intro src w h
    unfold strncpy at h
    split at h
    · exact absurd h (by simp)
    · rename_i x xs
      split at h
      · rename_i hx
        simp only [Option.some.injEq] at h
        subst h
        subst hx
        simp [cstr, List.takeWhile_cons]
      · rename_i hx
        simp only [Option.map_eq_some'] at h
        obtain ⟨w1, hw1, hw⟩ := h
        subst hw
        have h1 := ih xs w1 hw1
        simp only [cstr] at h1 ⊢
        simp only [List.take_succ_cons, List.takeWhile_cons, bne_iff_ne, ne_eq, hx,
          not_false_eq_true, decide_True, ↓reduceIte, List.length_cons, List.cons_append,
          List.cons.injEq, true_and, Nat.add_sub_add_right]
        exact h1

/-- The loop of `isNumber` inside the array: it tests the `n` bytes from `i` on. -/
theorem isNumberLoop_eq (res : List Nat) (n : Nat) : ∀ i, i + n ≤ res.length →
    isNumberLoop res n i = some (((res.drop i).take n).all (fun c => !notNumeric c)) := by
  induction n with
  | zero => intro i _; simp [isNumberLoop]
  | succ n ih =>
    intro i h
    have hi : i < res.length := by omega
    rw [List.drop_eq_getElem_cons hi, List.take_succ_cons]
    simp only [isNumberLoop, List.getElem?_eq_getElem hi, List.all_cons]
    by_cases hc : notNumeric res[i] = true
    · simp [hc]
    · simp only [hc, Bool.false_eq_true, ↓reduceIte, Bool.not_false, Bool.true_and]
      exact ih (i + 1) (by omega)

theorem cstr_append_zeros (w : List Nat) (k : Nat) (hw : ∀ c, c ∈ w → c ≠ 0) :
    cstr (w ++ List.replicate k 0) = w := by
  induction w with
  | nil => cases k <;> simp [cstr, List.replicate_succ, List.takeWhile_cons]
  | cons x w ih =>
    have hx : x ≠ 0 := hw x (List.mem_cons_self _ _)
    have := ih (fun c hc => hw c (List.mem_cons_of_mem _ hc))
    simp only [cstr] at this ⊢
    simp [List.takeWhile_cons, hx, this]

theorem cstr_ne_zero (s : List Nat) : ∀ c, c ∈ cstr s → c ≠ 0 := by
  intro c hc
  have := List.mem_takeWhile_imp hc
  simpa using this

theorem all_numeric_append_zeros (w : List Nat) (k : Nat) :
    (w ++ List.replicate k 0).all (fun c => !notNumeric c) =
      w.all (fun c => !notNumeric c) := by
  rw [List.all_append]
  have : (List.replicate k 0).all (fun c => !notNumeric c) = true := by
    rw [List.all_eq_true]
    intro x hx
    rw [List.eq_of_mem_replicate hx]
    decide
  rw [this, Bool.and_true]

theorem strncpy_total (n : Nat) : ∀ (src : List Nat), n ≤ src.length ∨ 0 ∈ src →
    ∃ w, strncpy src n = some w := by
  induction n with
  | zero => intro src _; exact ⟨[], by simp [strncpy]⟩
  | succ n ih =>
    intro src h
    cases src with
    | nil => simp at h
    | cons x xs =>
      by_cases hx : x = 0
      · exact ⟨List.replicate (n + 1) 0, by simp [strncpy, hx]⟩
      · obtain ⟨w, hw⟩ := ih xs (by
          rcases h with h | h
          · left; simpa using h
          · right
            simp only [List.mem_cons] at h
            rcases h with h | h
            · exact absurd h.symm hx
            · exact h)
        exact ⟨x :: w, by simp [strncpy, hx, hw]⟩

/-- The value of `getValue(buffer, maxlen, '(', '*')` for a buffer whose last `(` among the
first `maxlen - 2` bytes is at `s` and whose last `*` there is at `e`, with `s < e`. A span
`buffer[s+1..e)` of more than 16 bytes overflows the scratch array. Otherwise, with `span` the
C string in `buffer[s+1..e)`: the result is 0 when `span` has a character that is not a digit
or `.`; else `1000 * atof(span)` converted to `long`, unless `span` fills all 16 bytes. -/
theorem getValue_star_eq (buffer : List Nat) (maxlen : Int) (s e : Nat)
    (hmax : maxlen < 2 ^ 31) (hn : (maxlen - 2).toNat ≤ buffer.length)
    (hs : LastAt buffer 40 (maxlen - 2).toNat s) (he : LastAt buffer 42 (maxlen - 2).toNat e)
    (hse : s < e) :
    getValue buffer maxlen 40 42 =
      if 16 < e - s - 1 then none
      else if (cstr (slice buffer (s + 1) e)).all (fun c => !notNumeric c) then
        (if (cstr (slice buffer (s + 1) e)).length < 16 then
          toLong (mul1000 (atof (cstr (slice buffer (s + 1) e)))) else none)
      else some 0 := by
  have hs1 : findCharInArrayRev buffer 40 (maxlen - 2) = some (s : Int) :=
    findLoop_lastAt buffer 40 _ s hn hs
  have he1 : findCharInArrayRev buffer 42 (maxlen - 2) = some (e : Int) :=
    findLoop_lastAt buffer 42 _ e hn he
  have he3 := he.1
  have hl : ((e : Int) - (s : Int) - 1) = ((e - s - 1 : Nat) : Int) := by omega
  have hn2 : (((e : Int) - (s : Int) - 1) % 2 ^ 32).toNat = e - s - 1 := by omega
  have hd : ((s : Int) + 1).toNat = s + 1 := by omega
  unfold getValue
  rw [hs1, he1]
  simp only [hn2, hd]
  by_cases h16 : 16 < e - s - 1
  · rw [if_pos h16, if_pos h16]
  rw [if_neg h16, if_neg h16]
  obtain ⟨w, hw⟩ := strncpy_total (e - s - 1) (List.drop (s + 1) buffer)
    (Or.inl (by simp only [List.length_drop]; omega))
  rw [hw]
  have hw2 := strncpy_eq _ _ _ hw
  have hsl : List.take (e - s - 1) (List.drop (s + 1) buffer) = slice buffer (s + 1) e := by
    unfold slice
    rw [show e - (s + 1) = e - s - 1 by omega]
  rw [hsl] at hw2
  have hspan : (cstr (slice buffer (s + 1) e)).length ≤ e - s - 1 := by
    have h1 := cstr_length_le (slice buffer (s + 1) e)
    have h2 := slice_length_le buffer (s + 1) e
    omega
  have hres : w ++ List.replicate (16 - (e - s - 1)) 0 =
      cstr (slice buffer (s + 1) e) ++
        List.replicate (16 - (cstr (slice buffer (s + 1) e)).length) 0 := by
    rw [hw2, List.append_assoc, List.append_replicate_replicate]
    congr 2
    omega
  have hwlen : w.length = e - s - 1 := by
    rw [hw2]
    simp only [List.length_append, List.length_replicate]
    omega
  have hnum : isNumber (w ++ List.replicate (16 - (e - s - 1)) 0) ((e : Int) - (s : Int) - 1) =
      some ((cstr (slice buffer (s + 1) e)).all (fun c => !notNumeric c)) := by
    unfold isNumber
    rw [hl, Int.toNat_ofNat, isNumberLoop_eq _ _ 0 (by simp; omega), List.drop_zero,
      List.take_left' hwlen, hw2, all_numeric_append_zeros]
  simp only [↓reduceIte]
  rw [hnum]
  by_cases hall : (cstr (slice buffer (s + 1) e)).all (fun c => !notNumeric c) = true
  · rw [hall, if_pos rfl]
    simp only
    have hatof : atofRes (w ++ List.replicate (16 - (e - s - 1)) 0) =
        if (cstr (slice buffer (s + 1) e)).length < 16 then
          some (atof (cstr (slice buffer (s + 1) e))) else none := by
      unfold atofRes
      rw [hres, cstr_append_zeros _ _ (cstr_ne_zero _)]
      by_cases hlt : (cstr (slice buffer (s + 1) e)).length < 16
      · rw [if_pos hlt, if_pos]
        simp only [List.contains_eq_any_beq, List.any_eq_true, beq_iff_eq]
        refine ⟨0, ?_, rfl⟩
        rw [List.mem_append]
        right
        rw [List.mem_replicate]
        exact ⟨by omega, rfl⟩
      · rw [if_neg hlt, if_neg]
        have h16c : 16 - (cstr (slice buffer (s + 1) e)).length = 0 := by omega
        rw [h16c, List.replicate_zero, List.append_nil]
        simp only [List.contains_eq_any_beq, List.any_eq_true, beq_iff_eq, not_exists, not_and]
        intro x hx1 hx2
        exact cstr_ne_zero _ x hx1 hx2.symm
    rw [hatof]
    by_cases hlt : (cstr (slice buffer (s + 1) e)).length < 16
    · simp [hlt]
    · simp [hlt]
  · have hall2 : (cstr (slice buffer (s + 1) e)).all (fun c => !notNumeric c) = false := by
      simpa using hall
    rw [hall2]
    simp

/-! ## Calls that complete -/

theorem strncmpEq_total (s2 : List Nat) : ∀ (s1 : List Nat), 0 ∈ s1 →
    ∃ b, strncmpEq s1 (s2 ++ [0]) s2.length = some b := by
  induction s2 with
  | nil => intro s1 _; exact ⟨true, by simp [strncmpEq]⟩
  | cons b t ih =>
    intro s1 h0
    cases s1 with
    | nil => simp at h0
    | cons a s1t =>
      by_cases hab : a = b
      · by_cases ha0 : a = 0
        · subst hab
          subst ha0
          exact ⟨true, by simp [strncmpEq]⟩
        · have h0t : 0 ∈ s1t := by
            simp only [List.mem_cons] at h0
            rcases h0 with h | h
            · exact absurd h.symm ha0
            · exact h
          obtain ⟨r, hr⟩ := ih s1t h0t
          refine ⟨r, ?_⟩
          subst hab
          simp [strncmpEq, ha0, hr]
      · exact ⟨false, by simp [strncmpEq, hab]⟩

/-- On a C string the framing step of `decode_telegram` completes. -/
theorem frameStep_total (crc : Nat) (line rest : List Nat) (startChar endChar : Int)
    (hs : findLoop (line ++ 0 :: rest) 47 line.length = some startChar)
    (he : findLoop (line ++ 0 :: rest) 33 line.length = some endChar) :
    ∃ c v, frameStep crc (line ++ 0 :: rest) (line.length : Int) startChar endChar =
      some (c, v) := by
  have hlen : line.length ≤ (line ++ 0 :: rest).length := by simp
  unfold frameStep
  rcases (findLoop_some _ 47 _ startChar hs).2 with ⟨hs1, _⟩ | ⟨s, hs1, hs2⟩
  · rcases (findLoop_some _ 33 _ endChar he).2 with ⟨he1, _⟩ | ⟨e, he1, he2⟩
    · subst hs1 he1
      rw [if_neg (by omega), if_neg (by omega)]
      unfold crc16
      rw [crc16Loop_total _ _ 0 _ (by simp)]
      exact ⟨_, _, rfl⟩
    · subst hs1 he1
      rw [if_neg (by omega), if_pos (by omega)]
      have he3 := he2.1
      unfold crc16
      rw [crc16Loop_total _ _ 0 _ (by
        simp only [Int.toNat_ofNat, List.length_drop, List.length_append, List.length_cons,
          Int.toNat_one]
        omega)]
      have e1 : ((e : Int) + 1).toNat = e + 1 := by omega
      rw [e1]
      obtain ⟨w, hw⟩ := strncpy_total 4 (List.drop (e + 1) (line ++ 0 :: rest)) (Or.inr (by
        rw [List.drop_append_of_le_length (by omega)]
        simp))
      rw [hw]
      exact ⟨_, _, rfl⟩
  · subst hs1
    rw [if_pos (by omega)]
    have hs3 := hs2.1
    unfold crc16
    rw [crc16Loop_total _ _ 0 _ (by
      simp only [Int.toNat_ofNat, List.length_drop, List.length_append, List.length_cons]
      omega)]
    exact ⟨_, _, rfl⟩

/-- A call of `decode_telegram` on a C string completes when its usage step does. -/
theorem decode_telegram_defined (g : Globals) (line rest : List Nat) (u : Nat)
    (hu : usageStep g.currentUsage (line ++ 0 :: rest) (line.length : Int) = some u) :
    ∃ crc r, decode_telegram g (line ++ 0 :: rest) (line.length : Int) = some (⟨crc, u⟩, r) := by
  have hlen : line.length ≤ (line ++ 0 :: rest).length := by simp
  obtain ⟨sc, hs⟩ := findLoop_total (line ++ 0 :: rest) 47 line.length hlen
  obtain ⟨ec, he⟩ := findLoop_total (line ++ 0 :: rest) 33 line.length hlen
  obtain ⟨c, v, hf⟩ := frameStep_total g.currentCRC line rest sc ec hs he
  refine ⟨c, v, ?_⟩
  unfold decode_telegram findCharInArrayRev
  simp only [Int.toNat_ofNat, hs, he, hf, hu]

/-- The usage step on a line that begins with the usage tag. -/
theorem usageStep_tag (usage : Nat) (telegram : List Nat) (len : Int)
    (htag : usageTag <+: telegram) :
    usageStep usage telegram len =
      (getValue telegram len 40 42).map (fun newValue => (newValue % 2 ^ 32).toNat) := by
  unfold usageStep
  rw [strncmpEq_tag telegram htag]

theorem strncmpEq_true (s2 : List Nat) (h0 : ∀ c, c ∈ s2 → c ≠ 0) : ∀ (s1 : List Nat),
    strncmpEq s1 (s2 ++ [0]) s2.length = some true → s2 <+: s1 := by
  induction s2 with
  | nil => intro s1 _; exact List.nil_prefix
  | cons b t ih =>
    intro s1 h
    cases s1 with
    | nil => simp [strncmpEq] at h
    | cons a s1t =>
      simp only [List.cons_append, List.length_cons, strncmpEq] at h
      by_cases hab : a = b
      · subst hab
        have ha0 : a ≠ 0 := h0 a (List.mem_cons_self _ _)
        simp only [bne_self_eq_false, Bool.false_eq_true, ↓reduceIte, ha0] at h
        have := ih (fun c hc => h0 c (List.mem_cons_of_mem _ hc)) s1t h
        exact List.cons_prefix_cons.2 ⟨rfl, this⟩
      · simp [hab] at h

/-- A line without the usage tag, stored as a C string, keeps the Usage Value. -/
theorem usageStep_other (usage : Nat) (line rest : List Nat) (len : Int)
    (htag : ¬ usageTag <+: line ++ 0 :: rest) :
    usageStep usage (line ++ 0 :: rest) len = some usage := by
  obtain ⟨b, hb⟩ := strncmpEq_total usageTag (line ++ 0 :: rest) (by simp)
  unfold usageStep
  rw [hb]
  cases b with
  | false => rfl
  | true =>
    exfalso
    apply htag
    apply strncmpEq_true usageTag _ _ hb
    rw [usageTag_eq]
    intro c hc
    simp only [List.mem_cons, List.mem_singleton, List.not_mem_nil, or_false] at hc
    omega

/-- A call of `decode_telegram` on a C string completes when the line does not begin with the
usage tag, or when it does and `getValue` completes. -/
theorem decode_telegram_total (g : Globals) (line rest : List Nat)
    (hfield : ¬ usageTag <+: line ++ 0 :: rest ∨
      (getValue (line ++ 0 :: rest) (line.length : Int) 40 42).isSome) :
    (decode_telegram g (line ++ 0 :: rest) (line.length : Int)).isSome := by
  by_cases htag : usageTag <+: line ++ 0 :: rest
  · rcases hfield with h | h
    · exact absurd htag h
    · obtain ⟨v, hv⟩ := Option.isSome_iff_exists.1 h
      have hu : usageStep g.currentUsage (line ++ 0 :: rest) (line.length : Int) =
          some (v % 2 ^ 32).toNat := by
        rw [usageStep_tag _ _ _ htag, hv]
        rfl
      obtain ⟨crc, r, h1⟩ := decode_telegram_defined g line rest _ hu
      rw [h1]
      rfl
  · obtain ⟨crc, r, h1⟩ := decode_telegram_defined g line rest _
      (usageStep_other g.currentUsage line rest _ htag)
    rw [h1]
    rfl

/-! ## Checksum and validation result of `decode_telegram` -/

/-- The three cases of a completed call of `decode_telegram`: a start marker, no start marker
but an end marker, no marker. -/
theorem decode_telegram_cases (g : Globals) (telegram : List Nat) (len : Int) (g1 : Globals)
    (r : Bool) (h : decode_telegram g telegram len = some (g1, r)) :
    (∃ s, LastAt telegram 47 len.toNat s ∧
        g1.currentCRC = crcOf 0 (slice telegram s len.toNat) ∧ r = false) ∨
    (¬ Occurs telegram 47 len.toNat ∧ ∃ e, LastAt telegram 33 len.toNat e ∧
        g1.currentCRC = 0 ∧
        r = decide (strtol16 (cstr (slice telegram (e + 1) (e + 5))) % 2 ^ 32 =
              ((crcOf g.currentCRC [33] : Nat) : Int) % 2 ^ 32)) ∨
    (¬ Occurs telegram 47 len.toNat ∧ ¬ Occurs telegram 33 len.toNat ∧
        g1.currentCRC = crcOf g.currentCRC (slice telegram 0 len.toNat) ∧ r = false) := by
  obtain ⟨sc, ec, hs, he, hf, _⟩ := decode_telegram_some g telegram len g1 r h
  rcases (findLoop_some telegram 47 len.toNat sc hs).2 with ⟨hs1, hs2⟩ | ⟨s, hs1, hs2⟩
  · rcases (findLoop_some telegram 33 len.toNat ec he).2 with ⟨he1, he2⟩ | ⟨e, he1, he2⟩
    · subst hs1 he1
      obtain ⟨h1, h2⟩ := frameStep_data _ _ _ _ _ hf
      exact Or.inr (Or.inr ⟨hs2, he2, h1, h2⟩)
    · subst hs1 he1
      obtain ⟨h1, h2⟩ := frameStep_end _ _ _ e he2.2.1 _ _ hf
      exact Or.inr (Or.inl ⟨hs2, e, he2, h1, h2⟩)
  · subst hs1
    obtain ⟨h1, h2⟩ := frameStep_start _ _ _ _ _ _ _ hf
    exact Or.inl ⟨s, hs2, h1, h2⟩

/-- The result of a completed call of `decode_telegram`. -/
theorem result_of_completed_call (g : Globals) (telegram : List Nat) (len : Int)
    (g1 : Globals) (r : Bool) (hc : g.currentCRC < 2 ^ 32)
    (h : decode_telegram g telegram len = some (g1, r)) :
    (r = true ↔ ¬ Occurs telegram 47 len.toNat ∧ ∃ e, LastAt telegram 33 len.toNat e ∧
        strtol16 (cstr (slice telegram (e + 1) (e + 5))) =
          ((crcOf g.currentCRC [33] : Nat) : Int)) ∧
    (Occurs telegram 47 len.toNat → Occurs telegram 33 len.toNat → r = false) ∧
    (¬ Occurs telegram 47 len.toNat → ¬ Occurs telegram 33 len.toNat → r = false) := by
  have hcmp : ∀ e, (strtol16 (cstr (slice telegram (e + 1) (e + 5))) % 2 ^ 32 =
      ((crcOf g.currentCRC [33] : Nat) : Int) % 2 ^ 32) ↔
      strtol16 (cstr (slice telegram (e + 1) (e + 5))) =
        ((crcOf g.currentCRC [33] : Nat) : Int) := by
    intro e
    apply trailer_compare _ _ hc
    have := slice_length_le telegram (e + 1) (e + 5)
    have := cstr_length_le (slice telegram (e + 1) (e + 5))
    omega
  rcases decode_telegram_cases g telegram len g1 r h with
    ⟨s, hs, _, hr⟩ | ⟨hno, e, he, _, hr⟩ | ⟨hno, hne, _, hr⟩
  · have hocc := lastAt_occurs _ _ _ _ hs
    refine ⟨?_, fun _ _ => hr, fun _ _ => hr⟩
    subst hr
    constructor
    · intro h1; exact absurd h1 (by simp)
    · intro h1; exact absurd hocc h1.1
  · refine ⟨?_, fun h1 _ => absurd h1 hno, fun _ h2 => absurd (lastAt_occurs _ _ _ _ he) h2⟩
    subst hr
    rw [decide_eq_true_iff, hcmp e]
    constructor
    · intro h1; exact ⟨hno, e, he, h1⟩
    · rintro ⟨_, t, ht, h1⟩
      rw [lastAt_unique _ _ _ _ _ he ht]
      exact h1
  · refine ⟨?_, fun h1 _ => absurd h1 hno, fun _ _ => hr⟩
    subst hr
    constructor
    · intro h1; exact absurd h1 (by simp)
    · rintro ⟨_, t, ht, _⟩
      exact absurd (lastAt_occurs _ _ _ _ ht) hne

theorem occurs_append_iff (l x : List Nat) (c : Nat) :
    Occurs (l ++ x) c l.length ↔ c ∈ l := by
  constructor
  · rintro ⟨i, hi, h⟩
    rw [List.getElem?_append_left hi] at h
    exact List.getElem?_mem h
  · intro h
    obtain ⟨i, hi, h2⟩ := List.getElem_of_mem h
    exact ⟨i, hi, by rw [List.getElem?_append_left hi, List.getElem?_eq_getElem hi, h2]⟩

theorem lastAt_append_iff (l x : List Nat) (c s : Nat) :
    LastAt (l ++ x) c l.length s ↔ LastAt l c l.length s := by
  unfold LastAt
  constructor
  · rintro ⟨h1, h2, h3⟩
    refine ⟨h1, by rwa [List.getElem?_append_left h1] at h2, fun i hi1 hi2 => ?_⟩
    have := h3 i hi1 hi2
    rwa [List.getElem?_append_left hi1] at this
  · rintro ⟨h1, h2, h3⟩
    refine ⟨h1, by rwa [List.getElem?_append_left h1], fun i hi1 hi2 => ?_⟩
    rw [List.getElem?_append_left hi1]
    exact h3 i hi1 hi2

theorem slice_append_length (l x : List Nat) (s : Nat) :
    slice (l ++ x) s l.length = l.drop s := by
  unfold slice
  rw [List.drop_append_eq_append_drop, List.take_append_eq_append_take]
  simp

theorem crcBit_lt16 (x : Nat) (hx : x < 2 ^ 16) : crcBit x < 2 ^ 16 := by
  have h1 : x >>> 1 < 2 ^ 16 := by
    rw [Nat.shiftRight_eq_div_pow, pow_one]
    omega
  unfold crcBit
  split
  · exact Nat.xor_lt_two_pow h1 (by norm_num)
  · exact h1

theorem crcByte_lt16 (crc b : Nat) (hc : crc < 2 ^ 16) : crcByte crc b < 2 ^ 16 := by
  have hb : b % 256 < 2 ^ 16 := by omega
  have h0 : crc ^^^ (b % 256) < 2 ^ 16 := Nat.xor_lt_two_pow hc hb
  unfold crcByte
  simp only [Function.iterate_succ, Function.iterate_zero, Function.comp_apply, id_eq]
  exact crcBit_lt16 _ (crcBit_lt16 _ (crcBit_lt16 _ (crcBit_lt16 _ (crcBit_lt16 _
    (crcBit_lt16 _ (crcBit_lt16 _ (crcBit_lt16 _ h0)))))))

/-- A checksum that starts as a 16-bit value stays a 16-bit value. -/
theorem crcOf_lt16 (bs : List Nat) : ∀ crc, crc < 2 ^ 16 → crcOf crc bs < 2 ^ 16 := by
  induction bs with
  | nil => intro crc h; simpa [crcOf] using h
  | cons b bs ih =>
    intro crc h
    have := ih (crcByte crc b) (crcByte_lt16 crc b h)
    simpa [crcOf] using this

theorem feed_append (a : List (List Nat)) : ∀ (g : Globals) (b : List (List Nat)) (g2 : Globals)
    (rs : List Bool), feed g (a ++ b) = some (g2, rs) →
    ∃ g1 r1 r2, feed g a = some (g1, r1) ∧ feed g1 b = some (g2, r2) ∧ rs = r1 ++ r2 := by
  induction a with
  | nil =>
    intro g b g2 rs h
    exact ⟨g, [], rs, rfl, h, rfl⟩
  | cons l a ih =>
    intro g b g2 rs h
    simp only [List.cons_append, feed] at h
    split at h
    · exact absurd h (by simp)
    · rename_i g0 r0 hd
      simp only [Option.map_eq_some', Prod.mk.injEq] at h
      obtain ⟨⟨g3, rs3⟩, hf, hg, hr⟩ := h
      simp only at hg hr
      subst hg
      obtain ⟨g1, r1, r2, h1, h2, h3⟩ := ih g0 b g3 rs3 hf
      refine ⟨g1, r0 :: r1, r2, ?_, h2, by simp [← hr, h3]⟩
      simp [feed, hd, h1]

/-- Lines without a marker return false and extend the running checksum. -/
theorem feed_data (mids : List (List Nat)) : ∀ (g g1 : Globals) (rs : List Bool),
    (∀ m, m ∈ mids → 47 ∉ m ∧ 33 ∉ m) → feed g mids = some (g1, rs) →
    rs = List.replicate mids.length false ∧
      g1.currentCRC = crcOf g.currentCRC mids.flatten := by
  induction mids with
  | nil =>
    intro g g1 rs _ h
    simp only [feed, Option.some.injEq, Prod.mk.injEq] at h
    simp [← h.1, ← h.2, crcOf]
  | cons m mids ih =>
    intro g g1 rs hm h
    simp only [feed] at h
    split at h
    · exact absurd h (by simp)
    · rename_i g0 r0 hd
      simp only [Option.map_eq_some', Prod.mk.injEq] at h
      obtain ⟨⟨g3, rs3⟩, hf, hg, hr⟩ := h
      simp only at hg hr
      subst hg
      obtain ⟨h1, h2⟩ := ih g0 g3 rs3 (fun x hx => hm x (List.mem_cons_of_mem _ hx)) hf
      have hno := hm m (List.mem_cons_self _ _)
      have hcases := decode_telegram_cases g (m ++ [0]) (m.length : Int) g0 r0 hd
      simp only [Int.toNat_ofNat, occurs_append_iff, lastAt_append_iff,
        slice_append_length] at hcases
      rcases hcases with ⟨s, hs, _⟩ | ⟨_, e, he, _⟩ | ⟨_, _, hc, hr0⟩
      · exact absurd ((occurs_append_iff m [] 47).1
          (by simpa using lastAt_occurs _ _ _ _ hs)) hno.1
      · exact absurd ((occurs_append_iff m [] 33).1
          (by simpa using lastAt_occurs _ _ _ _ he)) hno.2
      · refine ⟨by simp [← hr, hr0, h1, List.replicate_succ], ?_⟩
        rw [h2, hc, List.flatten_cons, crcOf_append]
        simp

/-! ## A whole telegram -/

/-- A hexadecimal digit differs from every character that is not one. -/
theorem hexDigit_ne (c n : Nat) (h : (hexDigit c).isSome) (hn : hexDigit n = none) : c ≠ n := by
  intro hcn
  rw [hcn, hn] at h
  exact absurd h (by simp)

theorem hexDigit_not_space (c : Nat) (h : (hexDigit c).isSome) : isspace c = false := by
  unfold hexDigit at h
  simp only [isspace, Bool.or_eq_false_iff, decide_eq_false_iff_not, Bool.and_eq_false_iff]
  split at h
  · omega
  · split at h
    · omega
    · split at h
      · omega
      · exact absurd h (by simp)

/-- The function `strtol` reads four hexadecimal digits as their value. -/
theorem strtol16_hex (a b c d : Nat) (ha : (hexDigit a).isSome)
    (hb : (hexDigit b).isSome) (hc : (hexDigit c).isSome) (hd : (hexDigit d).isSome) :
    cstr [a, b, c, d] = [a, b, c, d] ∧ strtol16 [a, b, c, d] = (hexVal [a, b, c, d] : Int) := by
  have a0 := hexDigit_ne a 0 ha (by decide)
  have b0 := hexDigit_ne b 0 hb (by decide)
  have c0 := hexDigit_ne c 0 hc (by decide)
  have d0 := hexDigit_ne d 0 hd (by decide)
  obtain ⟨va, hva⟩ := Option.isSome_iff_exists.1 ha
  obtain ⟨vb, hvb⟩ := Option.isSome_iff_exists.1 hb
  obtain ⟨vc, hvc⟩ := Option.isSome_iff_exists.1 hc
  obtain ⟨vd, hvd⟩ := Option.isSome_iff_exists.1 hd
  have hsp := hexDigit_not_space a ha
  refine ⟨by simp [cstr, List.takeWhile_cons, a0, b0, c0, d0], ?_⟩
  have h1 : List.dropWhile isspace [a, b, c, d] = [a, b, c, d] := by
    simp [List.dropWhile_cons, hsp]
  have h2 : stripSign [a, b, c, d] = (false, [a, b, c, d]) := by
    unfold stripSign
    split
    · rename_i heq
      simp only [List.cons.injEq] at heq
      exact absurd heq.1 (hexDigit_ne a 45 ha (by decide))
    · rename_i heq
      simp only [List.cons.injEq] at heq
      exact absurd heq.1 (hexDigit_ne a 43 ha (by decide))
    · rfl
  have h3 : strip0x [a, b, c, d] = [a, b, c, d] := by
    unfold strip0x
    split
    · rename_i heq
      simp only [List.cons.injEq] at heq
      have hx1 := hexDigit_ne b 120 hb (by decide)
      have hx2 := hexDigit_ne b 88 hb (by decide)
      rw [if_neg (by rw [← heq.2.1]; omega)]
      simp [heq]
    · rfl
  unfold strtol16
  simp only [h1, h2, h3]
  simp [hexAcc, hexVal, hva, hvb, hvc, hvd]

/-- The end-marker line `!` followed by four hexadecimal digits `t` and bytes `rest` without a
marker: the call returns true exactly when the old checksum extended by `!` is the value of
the digits. -/
theorem decode_telegram_trailer_line (g : Globals) (t rest : List Nat) (g1 : Globals) (r : Bool)
    (hg : g.currentCRC < 2 ^ 32) (ht : t.length = 4)
    (hhex : ∀ c, c ∈ t → (hexDigit c).isSome) (hrest : 47 ∉ rest ∧ 33 ∉ rest)
    (h : decode_telegram g ((33 :: t ++ rest) ++ [0]) ((33 :: t ++ rest).length : Int) =
      some (g1, r)) :
    r = decide (crcOf g.currentCRC [33] = hexVal t) := by
  obtain ⟨a, b, c, d, rfl⟩ : ∃ a b c d, t = [a, b, c, d] := by
    match t, ht with
    | [a, b, c, d], _ => exact ⟨a, b, c, d, rfl⟩
  have ha := hhex a (by simp)
  have hb := hhex b (by simp)
  have hc := hhex c (by simp)
  have hd := hhex d (by simp)
  have hno47 : (47 : Nat) ∉ (33 :: [a, b, c, d] ++ rest) := by
    simp only [List.cons_append, List.nil_append, List.mem_cons, not_or]
    exact ⟨by omega, (hexDigit_ne a 47 ha (by decide)).symm,
      (hexDigit_ne b 47 hb (by decide)).symm, (hexDigit_ne c 47 hc (by decide)).symm,
      (hexDigit_ne d 47 hd (by decide)).symm, hrest.1⟩
  have hlast : LastAt (33 :: [a, b, c, d] ++ rest) 33 (33 :: [a, b, c, d] ++ rest).length 0 := by
    refine ⟨by simp, by simp, ?_⟩
    intro i hi1 hi2 hcon
    have hmem : (33 : Nat) ∈ ([a, b, c, d] ++ rest) := by
      obtain ⟨j, rfl⟩ : ∃ j, i = j + 1 := ⟨i - 1, by omega⟩
      simp only [List.cons_append, List.getElem?_cons_succ] at hcon
      exact List.getElem?_mem hcon
    simp only [List.cons_append, List.nil_append, List.mem_cons] at hmem
    rcases hmem with h1 | h1 | h1 | h1 | h1
    · exact hexDigit_ne a 33 ha (by decide) h1.symm
    · exact hexDigit_ne b 33 hb (by decide) h1.symm
    · exact hexDigit_ne c 33 hc (by decide) h1.symm
    · exact hexDigit_ne d 33 hd (by decide) h1.symm
    · exact hrest.2 h1
  have hv := (result_of_completed_call g _ _ g1 r hg h).1
  simp only [Int.toNat_ofNat, occurs_append_iff, lastAt_append_iff] at hv
  have hsl : slice ((33 :: [a, b, c, d] ++ rest) ++ [0]) (0 + 1) (0 + 5) = [a, b, c, d] := by
    simp [slice]
  obtain ⟨hcs, hst⟩ := strtol16_hex a b c d ha hb hc hd
  have key : r = true ↔ crcOf g.currentCRC [33] = hexVal [a, b, c, d] := by
    rw [hv]
    constructor
    · rintro ⟨_, e, he, h1⟩
      have he0 := lastAt_unique _ _ _ _ _ he hlast
      subst he0
      rw [hsl, hcs, hst] at h1
      exact_mod_cast h1.symm
    · intro h1
      refine ⟨hno47, 0, hlast, ?_⟩
      rw [hsl, hcs, hst, h1]
  cases r
  · simp only [Bool.false_eq_true, false_iff] at key
    simp [key]
  · simp only [true_iff] at key
    simp [key]

/-- C1 (as stated, refuted): the telegram `/` then `!0000!28DC`. The last line begins with `!`
followed by the four hexadecimal digits `0000` and has no `/`; the CRC of the bytes `/!` is
0x28DC, not 0, and neither is the CRC of `/!0000!`; yet the last call returns true, because the
trailer is read after the last `!` of the line. -/
theorem feed_second_end_marker :
    feed ⟨0, 0⟩ [bytes "/", bytes "!0000!28DC"] = some (⟨0, 0⟩, [false, true]) ∧
      crcOf 0 (bytes "/" ++ [33]) ≠ hexVal (bytes "0000") ∧
      crcOf 0 (bytes "/" ++ bytes "!0000!") ≠ hexVal (bytes "0000") := by
  decide

/-- The results of the calls on a telegram, when the calls return. -/
theorem feed_results (g : Globals) (first : List Nat) (mids : List (List Nat))
    (t rest : List Nat) (g1 : Globals) (rs : List Bool)
    (hfirst : 47 ∈ first) (hmids : ∀ m, m ∈ mids → 47 ∉ m ∧ 33 ∉ m)
    (ht : t.length = 4) (hhex : ∀ c, c ∈ t → (hexDigit c).isSome)
    (hrest : 47 ∉ rest ∧ 33 ∉ rest)
    (hrun : feed g (first :: mids ++ [33 :: t ++ rest]) = some (g1, rs)) :
    ∃ s, LastAt first 47 first.length s ∧
      rs = List.replicate (mids.length + 1) false ++
        [decide (crcOf 0 (first.drop s ++ mids.flatten ++ [33]) = hexVal t)] := by
  simp only [List.cons_append, feed] at hrun
  split at hrun
  · exact absurd hrun (by simp)
  · rename_i g0 r0 hd
    simp only [Option.map_eq_some', Prod.mk.injEq] at hrun
    obtain ⟨⟨g3, rs3⟩, hf, _, hr⟩ := hrun
    simp only at hr
    obtain ⟨g2, r1, r2, hf1, hf2, hrs⟩ := feed_append mids g0 [33 :: (t ++ rest)] g3 rs3 hf
    obtain ⟨hr1, hc1⟩ := feed_data mids g0 g2 r1 hmids hf1
    -- the first line
    have hcases := decode_telegram_cases g (first ++ [0]) (first.length : Int) g0 r0 hd
    simp only [Int.toNat_ofNat, occurs_append_iff, lastAt_append_iff,
      slice_append_length] at hcases
    rcases hcases with ⟨s, hs, hc0, hr0⟩ | ⟨hno, _⟩ | ⟨hno, _⟩
    · refine ⟨s, hs, ?_⟩
      -- the last line
      simp only [feed] at hf2
      split at hf2
      · exact absurd hf2 (by simp)
      · rename_i g4 r4 hd4
        simp only [Option.map_some', Option.some.injEq, Prod.mk.injEq] at hf2
        have hg2 : g2.currentCRC < 2 ^ 32 := by
          rw [hc1, hc0, ← crcOf_append]
          calc crcOf 0 (List.drop s first ++ mids.flatten) < 2 ^ 16 :=
                crcOf_lt16 _ 0 (by norm_num)
            _ < 2 ^ 32 := by norm_num
        have hd5 : decode_telegram g2 ((33 :: t ++ rest) ++ [0])
            ((33 :: t ++ rest).length : Int) = some (g4, r4) := by
          simpa using hd4
        have hlast := decode_telegram_trailer_line g2 t rest g4 r4 hg2 ht hhex hrest hd5
        rw [hc1, hc0, ← crcOf_append, ← crcOf_append] at hlast
        rw [← hr, hrs, hr1, ← hf2.2, hr0, hlast]
        simp [List.replicate_succ]
    · exact absurd hfirst hno
    · exact absurd hfirst hno

/-- The calls on a list of lines all return when on each line the usage step completes. -/
theorem feed_total (lines : List (List Nat)) : ∀ (g : Globals),
    (∀ l, l ∈ lines → ¬ usageTag <+: l ++ [0] ∨
      (getValue (l ++ [0]) (l.length : Int) 40 42).isSome) →
    ∃ g1 rs, feed g lines = some (g1, rs) := by
  induction lines with
  | nil => intro g _; exact ⟨g, [], rfl⟩
  | cons l ls ih =>
    intro g h
    obtain ⟨⟨g0, r0⟩, hd⟩ := Option.isSome_iff_exists.1
      (decode_telegram_total g l [] (h l (List.mem_cons_self _ _)))
    obtain ⟨g1, rs, hf⟩ := ih g0 (fun x hx => h x (List.mem_cons_of_mem _ hx))
    exact ⟨g1, r0 :: rs, by simp [feed, hd, hf]⟩

/-- C1 (amended): a telegram is fed line by line, each line as a C string: a first line
containing `/`, lines without marker, and a last line made of `!`, four hexadecimal digits `t`
and bytes without a marker; on each line before the last the usage step completes (the line
does not begin with the usage tag, or `getValue` returns). Then all calls return, every call
before the last returns false, and the last returns true exactly when the CRC from seed 0 of
the bytes from the last `/` of the first line through the `!` is the value of `t`. -/
theorem feed_telegram_valid (g : Globals) (first : List Nat) (mids : List (List Nat))
    (t rest : List Nat)
    (hfirst : 47 ∈ first) (hmids : ∀ m, m ∈ mids → 47 ∉ m ∧ 33 ∉ m)
    (ht : t.length = 4) (hhex : ∀ c, c ∈ t → (hexDigit c).isSome)
    (hrest : 47 ∉ rest ∧ 33 ∉ rest)
    (hfield : ∀ l, l ∈ first :: mids → ¬ usageTag <+: l ++ [0] ∨
      (getValue (l ++ [0]) (l.length : Int) 40 42).isSome) :
    ∃ g1 rs s, feed g (first :: mids ++ [33 :: t ++ rest]) = some (g1, rs) ∧
      LastAt first 47 first.length s ∧
      rs = List.replicate (mids.length + 1) false ++
        [decide (crcOf 0 (first.drop s ++ mids.flatten ++ [33]) = hexVal t)] := by
  have hall : ∀ l, l ∈ first :: mids ++ [33 :: t ++ rest] → ¬ usageTag <+: l ++ [0] ∨
      (getValue (l ++ [0]) (l.length : Int) 40 42).isSome := by
    intro l hl
    rw [List.mem_append] at hl
    rcases hl with hl | hl
    · exact hfield l hl
    · left
      simp only [List.mem_singleton] at hl
      subst hl
      rw [usageTag_eq]
      intro hpre
      rw [List.cons_append, List.cons_append, List.cons_prefix_cons] at hpre
      exact absurd hpre.1 (by decide)
  obtain ⟨g1, rs, hrun⟩ := feed_total _ g hall
  obtain ⟨s, hs, hrs⟩ := feed_results g first mids t rest g1 rs hfirst hmids ht hhex hrest hrun
  exact ⟨g1, rs, s, hrun, hs, hrs⟩

/-- Witness for C1 (amended): the telegram of the end-to-end scenario, whose CRC is 0x71CD. -/
theorem feed_telegram_valid_witness :
    ∃ g1 rs s, feed ⟨0, 0⟩ (bytes "/ISK5\\2M550T-1012\n" ::
        [bytes "1-0:1.7.0(00123.456*kW)\n"] ++ [33 :: bytes "71CD" ++ bytes "\n"]) =
          some (g1, rs) ∧
      LastAt (bytes "/ISK5\\2M550T-1012\n") 47 (bytes "/ISK5\\2M550T-1012\n").length s ∧
      rs = List.replicate ([bytes "1-0:1.7.0(00123.456*kW)\n"].length + 1) false ++
        [decide (crcOf 0 ((bytes "/ISK5\\2M550T-1012\n").drop s ++
          [bytes "1-0:1.7.0(00123.456*kW)\n"].flatten ++ [33]) = hexVal (bytes "71CD"))] :=
  feed_telegram_valid ⟨0, 0⟩ (bytes "/ISK5\\2M550T-1012\n")
    [bytes "1-0:1.7.0(00123.456*kW)\n"] (bytes "71CD") (bytes "\n")
    (by decide) (by decide) (by decide) (by decide) (by decide) (by decide!)

/-- The end-to-end scenario evaluated: the three calls return false, false, true and the stored
Usage Value is 123456; with another trailer the last call returns false as well. -/
theorem feed_scenario :
    feed ⟨0, 0⟩ [bytes "/ISK5\\2M550T-1012\n", bytes "1-0:1.7.0(00123.456*kW)\n",
        bytes "!71CD\n"] = some (⟨0, 123456⟩, [false, false, true]) ∧
      feed ⟨0, 0⟩ [bytes "/ISK5\\2M550T-1012\n", bytes "1-0:1.7.0(00123.456*kW)\n",
        bytes "!71CE\n"] = some (⟨0, 123456⟩, [false, false, false]) := by
  decide!

/-! ## Rounding to `double` -/

theorem log2Fuel_spec : ∀ (f n : Nat), 0 < n → n ≤ f →
    2 ^ log2Fuel f n ≤ n ∧ n < 2 ^ (log2Fuel f n + 1) := by
  intro f
  induction f with
  | zero => intro n h1 h2; omega
  | succ f ih =>
    intro n h1 h2
    unfold log2Fuel
    split
    · simp only [pow_zero, zero_add, pow_one]
      omega
    · rename_i hn
      obtain ⟨h3, h4⟩ := ih (n / 2) (by omega) (by omega)
      rw [pow_succ] at h4 ⊢
      rw [pow_succ]
      constructor <;> omega

theorem ilog2_spec (n : Nat) (h : 0 < n) : 2 ^ ilog2 n ≤ n ∧ n < 2 ^ (ilog2 n + 1) :=
  log2Fuel_spec n n h (le_refl n)

theorem scaleDen_pos (b : Nat) (e : Int) (h : 0 < b) : 0 < scaleDen b e := by
  unfold scaleDen
  split
  · exact Nat.mul_pos h (Nat.pow_pos (by norm_num))
  · exact h

/-- The scaled quotient is `a / b` divided by `2 ^ e`. -/
theorem scale_ratio (a b : Nat) (e : Int) :
    (scaleNum a e : ℚ) / (scaleDen b e : ℚ) = (a : ℚ) / (b : ℚ) / (2 : ℚ) ^ e := by
  unfold scaleNum scaleDen
  split
  · rename_i he
    obtain ⟨k, rfl⟩ := Int.eq_ofNat_of_zero_le he
    simp only [Int.toNat_ofNat, Nat.cast_mul, Nat.cast_pow, Nat.cast_ofNat, zpow_natCast]
    rw [div_div]
  · rename_i he
    obtain ⟨k, hk⟩ := Int.eq_ofNat_of_zero_le (show 0 ≤ -e by omega)
    have he2 : e = -(k : Int) := by omega
    subst he2
    simp only [neg_neg, Int.toNat_ofNat, Nat.cast_mul, Nat.cast_pow, Nat.cast_ofNat, zpow_neg,
      zpow_natCast]
    field_simp

/-- The significand before rounding is at least `2 ^ 52`. -/
theorem ulpExp_lower (a b : Nat) (ha : 0 < a) (hb : 0 < b) :
    (2 : ℚ) ^ (52 : Nat) * (2 : ℚ) ^ ulpExp a b ≤ (a : ℚ) / (b : ℚ) := by
  have hbq : (0 : ℚ) < b := by exact_mod_cast hb
  have h2 : (0 : ℚ) < 2 := by norm_num
  obtain ⟨hla, _⟩ := ilog2_spec a ha
  obtain ⟨_, hlb⟩ := ilog2_spec b hb
  unfold ulpExp
  simp only
  split
  · -- the quotient at `e0` is below `2 ^ 52`: one more bit
    have key : (2 : ℚ) ^ (52 : Nat) * (2 : ℚ) ^ ((ilog2 a : Int) - (ilog2 b : Int) - 52 - 1) *
        (2 : ℚ) ^ ((ilog2 b : Int) + 1) = (2 : ℚ) ^ (ilog2 a : Int) := by
      rw [← zpow_natCast, ← zpow_add₀ (two_ne_zero), ← zpow_add₀ (two_ne_zero)]
      congr 1
      push_cast
      ring
    have hbq2 : (b : ℚ) ≤ (2 : ℚ) ^ ((ilog2 b : Int) + 1) := by
      have : (b : ℚ) < ((2 ^ (ilog2 b + 1) : Nat) : ℚ) := by exact_mod_cast hlb
      have e : ((2 ^ (ilog2 b + 1) : Nat) : ℚ) = (2 : ℚ) ^ ((ilog2 b : Int) + 1) := by
        push_cast
        rw [← zpow_natCast]
        congr 1
      rw [e] at this
      exact le_of_lt this
    have haq : (2 : ℚ) ^ (ilog2 a : Int) ≤ (a : ℚ) := by
      have : ((2 ^ ilog2 a : Nat) : ℚ) ≤ (a : ℚ) := by exact_mod_cast hla
      simpa using this
    rw [le_div_iff₀ hbq]
    have hpos : (0 : ℚ) ≤ (2 : ℚ) ^ (52 : Nat) *
        (2 : ℚ) ^ ((ilog2 a : Int) - (ilog2 b : Int) - 52 - 1) := by positivity
    calc (2 : ℚ) ^ (52 : Nat) * (2 : ℚ) ^ ((ilog2 a : Int) - (ilog2 b : Int) - 52 - 1) * b
        ≤ (2 : ℚ) ^ (52 : Nat) * (2 : ℚ) ^ ((ilog2 a : Int) - (ilog2 b : Int) - 52 - 1) *
            (2 : ℚ) ^ ((ilog2 b : Int) + 1) := mul_le_mul_of_nonneg_left hbq2 hpos
      _ = (2 : ℚ) ^ (ilog2 a : Int) := key
      _ ≤ a := haq
  · rename_i hge
    have hge2 : 2 ^ 52 ≤ scaleNum a ((ilog2 a : Int) - (ilog2 b : Int) - 52) /
        scaleDen b ((ilog2 a : Int) - (ilog2 b : Int) - 52) := by omega
    have h1 : ((2 ^ 52 : Nat) : ℚ) ≤
        ((scaleNum a ((ilog2 a : Int) - (ilog2 b : Int) - 52) /
          scaleDen b ((ilog2 a : Int) - (ilog2 b : Int) - 52) : Nat) : ℚ) := by
      exact_mod_cast hge2
    have h3 := scale_ratio a b ((ilog2 a : Int) - (ilog2 b : Int) - 52)
    have h4 : (((scaleNum a ((ilog2 a : Int) - (ilog2 b : Int) - 52) /
          scaleDen b ((ilog2 a : Int) - (ilog2 b : Int) - 52) : Nat) : ℚ)) ≤
        (scaleNum a ((ilog2 a : Int) - (ilog2 b : Int) - 52) : ℚ) /
          (scaleDen b ((ilog2 a : Int) - (ilog2 b : Int) - 52) : ℚ) := Nat.cast_div_le
    rw [h3] at h4
    have hpos : (0 : ℚ) < (2 : ℚ) ^ ((ilog2 a : Int) - (ilog2 b : Int) - 52) := by positivity
    rw [le_div_iff₀ hpos] at h4
    push_cast at h1
    calc (2 : ℚ) ^ (52 : Nat) * (2 : ℚ) ^ ((ilog2 a : Int) - (ilog2 b : Int) - 52)
        ≤ _ := mul_le_mul_of_nonneg_right h1 (le_of_lt hpos)
      _ ≤ _ := h4

/-- The significand before rounding is below `2 ^ 53`. -/
theorem ulpExp_upper (a b : Nat) (ha : 0 < a) (hb : 0 < b) :
    (a : ℚ) / (b : ℚ) < (2 : ℚ) ^ (53 : Nat) * (2 : ℚ) ^ ulpExp a b := by
  have hbq : (0 : ℚ) < b := by exact_mod_cast hb
  obtain ⟨_, hla⟩ := ilog2_spec a ha
  obtain ⟨hlb, _⟩ := ilog2_spec b hb
  unfold ulpExp
  simp only
  split
  · rename_i hlt
    have hden := scaleDen_pos b ((ilog2 a : Int) - (ilog2 b : Int) - 52) hb
    have hdq : (0 : ℚ) < (scaleDen b ((ilog2 a : Int) - (ilog2 b : Int) - 52) : ℚ) := by
      exact_mod_cast hden
    have h1 : scaleNum a ((ilog2 a : Int) - (ilog2 b : Int) - 52) <
        2 ^ 52 * scaleDen b ((ilog2 a : Int) - (ilog2 b : Int) - 52) :=
      (Nat.div_lt_iff_lt_mul hden).1 hlt
    have h2 : (scaleNum a ((ilog2 a : Int) - (ilog2 b : Int) - 52) : ℚ) <
        2 ^ (52 : Nat) * (scaleDen b ((ilog2 a : Int) - (ilog2 b : Int) - 52) : ℚ) := by
      exact_mod_cast h1
    have h3 := scale_ratio a b ((ilog2 a : Int) - (ilog2 b : Int) - 52)
    have h4 : (scaleNum a ((ilog2 a : Int) - (ilog2 b : Int) - 52) : ℚ) /
        (scaleDen b ((ilog2 a : Int) - (ilog2 b : Int) - 52) : ℚ) < 2 ^ (52 : Nat) := by
      rw [div_lt_iff₀ hdq]; exact h2
    rw [h3] at h4
    have hpos : (0 : ℚ) < (2 : ℚ) ^ ((ilog2 a : Int) - (ilog2 b : Int) - 52) := by positivity
    rw [div_lt_iff₀ hpos] at h4
    have e : (2 : ℚ) ^ ((ilog2 a : Int) - (ilog2 b : Int) - 52) =
        2 * (2 : ℚ) ^ ((ilog2 a : Int) - (ilog2 b : Int) - 52 - 1) := by
      rw [← zpow_one_add₀ (two_ne_zero)]
      congr 1
      ring
    have e53 : (2 : ℚ) ^ (53 : Nat) = 2 ^ (52 : Nat) * 2 := by norm_num
    rw [e] at h4
    rw [e53]
    linarith
  · have key : (2 : ℚ) ^ (53 : Nat) * (2 : ℚ) ^ ((ilog2 a : Int) - (ilog2 b : Int) - 52) *
        (2 : ℚ) ^ (ilog2 b : Int) = (2 : ℚ) ^ ((ilog2 a : Int) + 1) := by
      rw [← zpow_natCast, ← zpow_add₀ (two_ne_zero), ← zpow_add₀ (two_ne_zero)]
      congr 1
      push_cast
      ring
    have hbq2 : (2 : ℚ) ^ (ilog2 b : Int) ≤ (b : ℚ) := by
      have : ((2 ^ ilog2 b : Nat) : ℚ) ≤ (b : ℚ) := by exact_mod_cast hlb
      simpa using this
    have haq : (a : ℚ) < (2 : ℚ) ^ ((ilog2 a : Int) + 1) := by
      have : (a : ℚ) < ((2 ^ (ilog2 a + 1) : Nat) : ℚ) := by exact_mod_cast hla
      have e : ((2 ^ (ilog2 a + 1) : Nat) : ℚ) = (2 : ℚ) ^ ((ilog2 a : Int) + 1) := by
        push_cast
        rw [← zpow_natCast]
        congr 1
      rwa [e] at this
    rw [div_lt_iff₀ hbq]
    have hpos : (0 : ℚ) ≤ (2 : ℚ) ^ (53 : Nat) *
        (2 : ℚ) ^ ((ilog2 a : Int) - (ilog2 b : Int) - 52) := by positivity
    calc (a : ℚ) < (2 : ℚ) ^ ((ilog2 a : Int) + 1) := haq
      _ = (2 : ℚ) ^ (53 : Nat) * (2 : ℚ) ^ ((ilog2 a : Int) - (ilog2 b : Int) - 52) *
            (2 : ℚ) ^ (ilog2 b : Int) := key.symm
      _ ≤ (2 : ℚ) ^ (53 : Nat) * (2 : ℚ) ^ ((ilog2 a : Int) - (ilog2 b : Int) - 52) * b :=
          mul_le_mul_of_nonneg_left hbq2 hpos

/-- The result of `roundDbl` on a positive quotient has a significand of 53 bits: it lies
between `2 ^ 52` and `2 ^ 53` (the upper end is `2 ^ 52` at the next exponent). -/
theorem roundDbl_significand (a b : Nat) (ha : 0 < a) (hb : 0 < b) :
    2 ^ 52 ≤ (roundDbl a b).mant ∧ (roundDbl a b).mant ≤ 2 ^ 53 := by
  have hlow := ulpExp_lower a b ha hb
  have hup := ulpExp_upper a b ha hb
  have hden := scaleDen_pos b (ulpExp a b) hb
  have hdq : (0 : ℚ) < (scaleDen b (ulpExp a b) : ℚ) := by exact_mod_cast hden
  have hpos : (0 : ℚ) < (2 : ℚ) ^ ulpExp a b := by positivity
  have hr := scale_ratio a b (ulpExp a b)
  have h1 : (2 : ℚ) ^ (52 : Nat) ≤
      (scaleNum a (ulpExp a b) : ℚ) / (scaleDen b (ulpExp a b) : ℚ) := by
    rw [hr, le_div_iff₀ hpos]; exact hlow
  have h2 : (scaleNum a (ulpExp a b) : ℚ) / (scaleDen b (ulpExp a b) : ℚ) <
      (2 : ℚ) ^ (53 : Nat) := by
    rw [hr, div_lt_iff₀ hpos]; exact hup
  rw [le_div_iff₀ hdq] at h1
  rw [div_lt_iff₀ hdq] at h2
  have h1n : 2 ^ 52 * scaleDen b (ulpExp a b) ≤ scaleNum a (ulpExp a b) := by
    exact_mod_cast h1
  have h2n : scaleNum a (ulpExp a b) < 2 ^ 53 * scaleDen b (ulpExp a b) := by
    exact_mod_cast h2
  have hq1 : 2 ^ 52 ≤ scaleNum a (ulpExp a b) / scaleDen b (ulpExp a b) :=
    (Nat.le_div_iff_mul_le hden).2 h1n
  have hq2 : scaleNum a (ulpExp a b) / scaleDen b (ulpExp a b) < 2 ^ 53 :=
    (Nat.div_lt_iff_lt_mul hden).2 h2n
  unfold roundDbl
  rw [if_neg (by omega)]
  simp only [roundHalfEven]
  split
  · omega
  · split <;> omega

theorem lastAt_append_le (l x : List Nat) (c n s : Nat) (hn : n ≤ l.length) :
    LastAt (l ++ x) c n s ↔ LastAt l c n s := by
  unfold LastAt
  constructor
  · rintro ⟨h1, h2, h3⟩
    refine ⟨h1, by rwa [List.getElem?_append_left (by omega)] at h2, fun i hi1 hi2 => ?_⟩
    have := h3 i hi1 hi2
    rwa [List.getElem?_append_left (by omega)] at this
  · rintro ⟨h1, h2, h3⟩
    refine ⟨h1, by rwa [List.getElem?_append_left (by omega)], fun i hi1 hi2 => ?_⟩
    rw [List.getElem?_append_left (by omega)]
    exact h3 i hi1 hi2

theorem slice_append_le (l x : List Nat) (s e : Nat) (he : e ≤ l.length) :
    slice (l ++ x) s e = slice l s e := by
  unfold slice
  rw [List.drop_append_eq_append_drop, List.take_append_eq_append_take]
  have h1 : e - s - (List.drop s l).length = 0 := by
    simp only [List.length_drop]; omega
  rw [h1, List.take_zero, List.append_nil]

/-- The usage step on a C string that begins with the usage tag and has a well-placed field:
the value of `getValue` is stored. -/
theorem decode_telegram_field (g : Globals) (line rest : List Nat) (v : Int)
    (htag : usageTag <+: line)
    (hv : getValue (line ++ 0 :: rest) (line.length : Int) 40 42 = some v) :
    ∃ g1 r, decode_telegram g (line ++ 0 :: rest) (line.length : Int) = some (g1, r) ∧
      g1.currentUsage = (v % 2 ^ 32).toNat := by
  have htag2 : usageTag <+: line ++ 0 :: rest := htag.trans (List.prefix_append _ _)
  have hu : usageStep g.currentUsage (line ++ 0 :: rest) (line.length : Int) =
      some (v % 2 ^ 32).toNat := by
    rw [usageStep_tag _ _ _ htag2, hv]
    rfl
  obtain ⟨crc, r, h⟩ := decode_telegram_defined g line rest _ hu
  exact ⟨_, r, h, rfl⟩

/-- The value of `getValue` on a C string, in terms of the line. -/
theorem getValue_line (line rest : List Nat) (s e : Nat) (hlen : (line.length : Int) < 2 ^ 31)
    (hs : LastAt line 40 (line.length - 2) s) (he : LastAt line 42 (line.length - 2) e)
    (hse : s < e) :
    getValue (line ++ 0 :: rest) (line.length : Int) 40 42 =
      if 16 < e - s - 1 then none
      else if (cstr (slice line (s + 1) e)).all (fun c => !notNumeric c) then
        (if (cstr (slice line (s + 1) e)).length < 16 then
          toLong (mul1000 (atof (cstr (slice line (s + 1) e)))) else none)
      else some 0 := by
  have hn : ((line.length : Int) - 2).toNat = line.length - 2 := by omega
  have he1 := he.1
  rw [getValue_star_eq (line ++ 0 :: rest) (line.length : Int) s e hlen
    (by rw [hn]; simp only [List.length_append, List.length_cons]; omega)
    (by rw [hn]; exact (lastAt_append_le _ _ _ _ _ (by omega)).2 hs)
    (by rw [hn]; exact (lastAt_append_le _ _ _ _ _ (by omega)).2 he) hse,
    slice_append_le _ _ _ _ (by omega)]

/-! ## The stored Usage Value -/

/-- C4 (as stated, refuted): with previous Usage Value 7, the line `1-0:1.7.0(A0041.698*kW)`
leaves `currentUsage` equal to 0, not 7. -/
theorem decode_telegram_malformed_resets :
    (decode_telegram ⟨0, 7⟩ (bytes "1-0:1.7.0(A0041.698*kW)" ++ [0]) 23).map
        (fun p => p.1.currentUsage) = some 0 ∧ (0 : Nat) ≠ 7 := by
  decide!

/-- C4 (amended): a line, stored as a C string, begins with the usage tag and its span between
the last `(` and the last `*` (among the first `len - 2` bytes) has at most 16 bytes and,
before any null byte, a character that is not a decimal digit or `.`. Then `decode_telegram`
returns and stores 0 in `currentUsage`, whatever the previous value. -/
theorem decode_telegram_malformed_usage (g : Globals) (line rest : List Nat) (s e : Nat)
    (hlen : (line.length : Int) < 2 ^ 31) (htag : usageTag <+: line)
    (hs : LastAt line 40 (line.length - 2) s) (he : LastAt line 42 (line.length - 2) e)
    (hse : s < e) (h16 : e - s - 1 ≤ 16)
    (hbad : ∃ c, c ∈ cstr (slice line (s + 1) e) ∧ notNumeric c = true) :
    ∃ g1 r, decode_telegram g (line ++ 0 :: rest) (line.length : Int) = some (g1, r) ∧
      g1.currentUsage = 0 := by
  have hfalse : (cstr (slice line (s + 1) e)).all (fun c => !notNumeric c) = false := by
    obtain ⟨c, hc1, hc2⟩ := hbad
    rw [List.all_eq_false]
    exact ⟨c, hc1, by simp [hc2]⟩
  have hv : getValue (line ++ 0 :: rest) (line.length : Int) 40 42 = some 0 := by
    rw [getValue_line line rest s e hlen hs he hse, hfalse, if_neg (by omega)]
    simp
  obtain ⟨g1, r, h1, h2⟩ := decode_telegram_field g line rest 0 htag hv
  exact ⟨g1, r, h1, by rw [h2]; rfl⟩

/-- Witness for C4 (amended): the line `1-0:1.7.0(A0041.698*kW)` with previous value 7. -/
theorem decode_telegram_malformed_usage_witness :
    ∃ g1 r, decode_telegram ⟨0, 7⟩ (bytes "1-0:1.7.0(A0041.698*kW)" ++ 0 :: [])
        ((bytes "1-0:1.7.0(A0041.698*kW)").length : Int) = some (g1, r) ∧
      g1.currentUsage = 0 :=
  decode_telegram_malformed_usage ⟨0, 7⟩ (bytes "1-0:1.7.0(A0041.698*kW)") [] 9 19
    (by decide) (by decide) (by decide) (by decide) (by decide) (by decide)
    ⟨65, by decide, by decide⟩

/-- C9: the line `1-0:1.7.0(00041.698 kW)` followed by CR LF has the usage tag, a `(` at index 9
and no `*`; `getValue` computes the span length `-1 - 9 - 1 = -11`, the `strncpy` into the
16-byte scratch array is out of bounds, and `decode_telegram` does not complete. The same
happens for the field `0000000000041.698` of 17 characters, span length `27 - 9 - 1 = 17`. -/
theorem getValue_span_out_of_bounds :
    findCharInArrayRev (bytes "1-0:1.7.0(00041.698 kW)\r\n" ++ [0]) 40 (25 - 2) = some 9 ∧
      findCharInArrayRev (bytes "1-0:1.7.0(00041.698 kW)\r\n" ++ [0]) 42 (25 - 2) = some (-1) ∧
      ¬ (0 ≤ ((-1 : Int) - 9 - 1) ∧ ((-1 : Int) - 9 - 1) ≤ 15) ∧
      getValue (bytes "1-0:1.7.0(00041.698 kW)\r\n" ++ [0]) 25 40 42 = none ∧
      decode_telegram ⟨0, 0⟩ (bytes "1-0:1.7.0(00041.698 kW)\r\n" ++ [0]) 25 = none ∧
      findCharInArrayRev (bytes "1-0:1.7.0(0000000000041.698*kW)\r\n" ++ [0]) 40 (33 - 2) =
        some 9 ∧
      findCharInArrayRev (bytes "1-0:1.7.0(0000000000041.698*kW)\r\n" ++ [0]) 42 (33 - 2) =
        some 27 ∧
      ¬ (0 ≤ ((27 : Int) - 9 - 1) ∧ ((27 : Int) - 9 - 1) ≤ 15) ∧
      getValue (bytes "1-0:1.7.0(0000000000041.698*kW)\r\n" ++ [0]) 33 40 42 = none ∧
      decode_telegram ⟨0, 0⟩ (bytes "1-0:1.7.0(0000000000041.698*kW)\r\n" ++ [0]) 33 = none := by
  decide!

/-! ## Properties of `read_bytes_until` -/

/-- Invariant of the read loop: it returns, the index grows by at most the iterations left, the
buffer keeps its size, cells outside `[index, m)` keep their value and each cell `i` in
`[index, m)` holds the result of read number `k + (i - index)`, which is not the terminator. -/
theorem readLoop_spec (t : Nat) (src : ByteSource) (n : Nat) :
    ∀ (index k : Nat) (buffer : List Nat), index + n ≤ buffer.length →
      ∃ m k1 b1, readLoop t src n index k buffer = some (m, k1, b1) ∧
        index ≤ m ∧ m ≤ index + n ∧ b1.length = buffer.length ∧
        (∀ i, i < index ∨ m ≤ i → b1[i]? = buffer[i]?) ∧
        (∀ i, index ≤ i → i < m →
          b1[i]? = some ((src (k + (i - index))).getD 0) ∧ (src (k + (i - index))).getD 0 ≠ t) := by
  induction n with
  | zero =>
    intro index k buffer _
    exact ⟨index, k, buffer, rfl, le_refl _, le_refl _, rfl, fun _ _ => rfl,
      fun i h1 h2 => absurd h2 (by omega)⟩
  | succ n ih =>
    intro index k buffer hlen
    by_cases hc : (src k).getD 0 = t
    · refine ⟨index, k + 1, buffer, ?_, le_refl _, by omega, rfl, fun _ _ => rfl,
        fun i h1 h2 => absurd h2 (by omega)⟩
      simp [readLoop, hc]
    · have hidx : index < buffer.length := by omega
      obtain ⟨m, k1, b1, hrun, h1, h2, h3, h4, h5⟩ :=
        ih (index + 1) (k + 1) (buffer.set index ((src k).getD 0)) (by simp; omega)
      refine ⟨m, k1, b1, ?_, by omega, by omega, by simpa using h3, ?_, ?_⟩
      · have hneg : ¬ (((src k).getD 0 : Nat) : Int) < 0 := by omega
        simp [readLoop, hc, store, hidx, hrun, hneg]
      · intro i hi
        rw [h4 i (by omega)]
        have : index ≠ i := by omega
        simp [List.getElem?_set, this]
      · intro i hi1 hi2
        by_cases hi : i = index
        · subst hi
          rw [h4 i (by omega)]
          simp [List.getElem?_set, hidx, hc]
        · have e : k + 1 + (i - (index + 1)) = k + (i - index) := by omega
          have := h5 i (by omega) hi2
          rwa [e] at this

/-- C5: with a buffer of at least `capacity` bytes, `read_bytes_until` returns a length
`n ≤ capacity`, changes no buffer position from `n` on, stores in each position below `n` the
result of the corresponding read, and none of these bytes equals the terminator. -/
theorem read_bytes_until_bounded (terminator : Nat) (src : ByteSource) (k : Nat)
    (buffer : List Nat) (capacity : Nat) (hcap : capacity ≤ buffer.length) :
    ∃ n k1 b1, read_bytes_until terminator src k buffer capacity = some (n, k1, b1) ∧
      n ≤ capacity ∧ b1.length = buffer.length ∧
      (∀ i, n ≤ i → b1[i]? = buffer[i]?) ∧
      (∀ i, i < n → b1[i]? = some ((src (k + i)).getD 0) ∧ b1[i]? ≠ some terminator) := by
  obtain ⟨m, k1, b1, hrun, _, h2, h3, h4, h5⟩ :=
    readLoop_spec terminator src capacity 0 k buffer (by omega)
  refine ⟨m, k1, b1, hrun, by omega, h3, fun i hi => h4 i (Or.inr hi), ?_⟩
  intro i hi
  have := h5 i (Nat.zero_le _) hi
  simp only [Nat.sub_zero] at this
  refine ⟨this.1, ?_⟩
  rw [this.1]
  simpa using this.2

/-- Witness for C5: the source delivers `A`, `B`, newline into an 8-byte buffer. -/
theorem read_bytes_until_bounded_witness :
    ∃ n k1 b1,
      read_bytes_until 10 (fun k => [some 65, some 66, some 10].getD k none) 0
        (List.replicate 8 1) 8 = some (n, k1, b1) ∧
      n ≤ 8 ∧ b1.length = (List.replicate 8 1).length ∧
      (∀ i, n ≤ i → b1[i]? = (List.replicate 8 1)[i]?) ∧
      (∀ i, i < n →
        b1[i]? = some (((fun k => [some 65, some 66, some 10].getD k none) (0 + i)).getD 0) ∧
        b1[i]? ≠ some 10) :=
  read_bytes_until_bounded 10 (fun k => [some 65, some 66, some 10].getD k none) 0
    (List.replicate 8 1) 8 (by decide)

/-- C8: a read that times out is not skipped. With the reads timeout, `A`, newline the function
returns length 2 and the buffer starts with a null byte followed by `A`: the time-out appended a
byte that was never received. -/
theorem read_bytes_until_timeout_appends :
    read_bytes_until 10 (fun k => [none, some 65, some 10].getD k none) 0
      (List.replicate 8 1) 8 = some (2, 3, [0, 65, 1, 1, 1, 1, 1, 1]) := by
  decide

/-- When the first `n` reads deliver no terminator the read loop runs to `index + n`. -/
theorem readLoop_full (t : Nat) (src : ByteSource) (n : Nat) :
    ∀ (index k : Nat) (buffer : List Nat), index + n ≤ buffer.length →
      (∀ j, j < n → (src (k + j)).getD 0 ≠ t) →
      ∃ k1 b1, readLoop t src n index k buffer = some (index + n, k1, b1) ∧
        b1.length = buffer.length := by
  induction n with
  | zero =>
    intro index k buffer _ _
    exact ⟨k, buffer, rfl, rfl⟩
  | succ n ih =>
    intro index k buffer hlen hsrc
    have hc : (src k).getD 0 ≠ t := by simpa using hsrc 0 (by omega)
    have hidx : index < buffer.length := by omega
    obtain ⟨k1, b1, hrun, hl⟩ :=
      ih (index + 1) (k + 1) (buffer.set index ((src k).getD 0)) (by simp; omega)
        (fun j hj => by
          have := hsrc (j + 1) (by omega)
          rwa [show k + (j + 1) = k + 1 + j by omega] at this)
    refine ⟨k1, b1, ?_, by simpa using hl⟩
    have hneg : ¬ (((src k).getD 0 : Nat) : Int) < 0 := by omega
    simp [readLoop, hc, store, hidx, hrun, hneg]
    omega

/-- A line of 1050 bytes without a newline: `read_bytes_until` returns 1050 and the iteration
of `p1_read` stores outside the 1050-byte buffer. -/
theorem p1_read_iter_long_line (src : ByteSource) (k : Nat) (g : Globals) (data : List Nat)
    (hdata : data.length = 1050) (hsrc : ∀ j, j < 1050 → (src (k + j)).getD 0 ≠ 10) :
    (∃ k1 b1, read_bytes_until 10 src k data 1050 = some (1050, k1, b1) ∧ b1.length = 1050) ∧
      p1_read_iter src k g data = none := by
  obtain ⟨k1, b1, hrun, hl⟩ := readLoop_full 10 src 1050 0 k data (by omega) hsrc
  have hl2 : b1.length = 1050 := by omega
  have hrun2 : read_bytes_until 10 src k data 1050 = some (1050, k1, b1) := by
    simpa [read_bytes_until] using hrun
  refine ⟨⟨k1, b1, hrun2, hl2⟩, ?_⟩
  simp [p1_read_iter, hrun2, store, hl2]

/-- C10: on a line of 1050 bytes `A` without a newline `read_bytes_until` returns 1050, so
`len + 1 < 1050` fails, and the iteration of `p1_read` stores outside the 1050-byte buffer. -/
theorem p1_read_iter_overflow :
    (∃ k1 b1, read_bytes_until 10 (fun _ => some 65) 0 (List.replicate 1050 0) 1050 =
        some (1050, k1, b1) ∧ b1.length = 1050) ∧ ¬ (1050 + 1 < 1050) ∧
      p1_read_iter (fun _ => some 65) 0 ⟨0, 0⟩ (List.replicate 1050 0) = none :=
  have h := p1_read_iter_long_line (fun _ => some 65) 0 ⟨0, 0⟩ (List.replicate 1050 0)
    (List.length_replicate 1050 0) (fun _ _ => by simp)
  ⟨h.1, by omega, h.2⟩

/-! ## Properties of `p1_sensor_init` -/

/-- C6: `p1_sensor_init(NULL)` returns `ESP_ERR_INVALID_ARG`, a non-null config on an initialized
driver returns `ESP_ERR_INVALID_STATE`, both leave the context as it was; hence after a
successful init a second init fails with `ESP_ERR_INVALID_STATE` and the first configuration
stays the stored one. -/
theorem p1_sensor_init_guards (env env2 : Platform) (ctx ctx1 : p1_sensor_ctx_t)
    (cfg cfg2 : p1_sensor_config_t) :
    p1_sensor_init env ctx none = some (ESP_ERR_INVALID_ARG, ctx) ∧
    (ctx.is_initialized = true →
      p1_sensor_init env ctx (some cfg) = some (ESP_ERR_INVALID_STATE, ctx)) ∧
    (p1_sensor_init env ctx (some cfg) = some (ESP_OK, ctx1) →
      ctx1.config = some cfg ∧ ctx1.is_initialized = true ∧
      p1_sensor_init env2 ctx1 (some cfg2) = some (ESP_ERR_INVALID_STATE, ctx1) ∧
      p1_sensor_init env2 ctx1 none = some (ESP_ERR_INVALID_ARG, ctx1)) := by
  refine ⟨rfl, ?_, ?_⟩
  · intro h
    simp [p1_sensor_init, h]
  · intro h
    have hinit : ctx1.config = some cfg ∧ ctx1.is_initialized = true := by
      unfold p1_sensor_init at h
      simp only at h
      split at h
      · simp [ESP_ERR_INVALID_STATE, ESP_OK] at h
      · split at h
        · exact absurd h (by simp)
        · rename_i err herr
          split at h
          · rename_i hne
            simp only [Option.some.injEq, Prod.mk.injEq] at h
            simp [h.1] at hne
          · split at h
            · rename_i hne
              simp only [Option.some.injEq, Prod.mk.injEq] at h
              simp [h.1] at hne
            · split at h
              · rename_i hne
                simp only [Option.some.injEq, Prod.mk.injEq] at h
                simp [h.1] at hne
              · simp only [Option.some.injEq, Prod.mk.injEq, true_and] at h
                subst h
                exact ⟨rfl, rfl⟩
    refine ⟨hinit.1, hinit.2, ?_, rfl⟩
    simp [p1_sensor_init, hinit.2]

/-- Witness for C6: a fresh context, a platform on which every call succeeds. -/
theorem p1_sensor_init_guards_witness :
    p1_sensor_init ⟨0, 0, 0, 0, 0, 7, 0⟩ ⟨none, none, false⟩ (some ⟨none, 1, none, 5000⟩) =
        some (ESP_OK, ⟨some ⟨none, 1, none, 5000⟩, some 7, true⟩) ∧
      p1_sensor_init ⟨0, 0, 0, 0, 0, 9, 0⟩ ⟨some ⟨none, 1, none, 5000⟩, some 7, true⟩
          (some ⟨some 3, 2, none, 100⟩) =
        some (ESP_ERR_INVALID_STATE, ⟨some ⟨none, 1, none, 5000⟩, some 7, true⟩) :=
  ⟨by decide,
   ((p1_sensor_init_guards ⟨0, 0, 0, 0, 0, 7, 0⟩ ⟨0, 0, 0, 0, 0, 9, 0⟩ ⟨none, none, false⟩
      ⟨some ⟨none, 1, none, 5000⟩, some 7, true⟩ ⟨none, 1, none, 5000⟩
      ⟨some 3, 2, none, 100⟩).2.2 (by decide)).2.2.1⟩

end P1
